import Mathlib

/-!
# first-officer: verification of the spec against the source

Shallow embedding of the core pure logic of the `first-officer` proxy
(Rust sources under `src/`), together with theorems settling the frozen
claims C1..C10.

Conventions:
* Rust `String` is modelled as Lean `String` for the request/response
  translators and the renamer, and as `List Char` for the two byte-level
  incremental algorithms (the thinking-tag parser and the SSE framer),
  where sub-string search and draining are the whole algorithm.  All
  strings the program searches for are ASCII, so char-level and
  byte-level indices coincide.
* Rust `HashMap` is modelled as an association list; insertion conses a
  fresh binding in front, which has the same `lookup` semantics as
  `HashMap::insert` (last write wins).
* `serde_json::Value` is modelled by the inductive `Json`; the external
  library functions `serde_json::from_str` / `to_string` are parameters
  (`parseArgs`, `serJson`) of the definitions that call them.
* Loops that repeatedly drain a prefix of a buffer are written with an
  explicit fuel argument so that every definition is executable by the
  kernel; callers pass fuel strictly larger than the buffer length,
  which suffices because every loop iteration either ends the loop or
  consumes at least two characters of the buffer.
-/

namespace FirstOfficer

/-! ## Substring search (`str::find` on `List Char`) -/

/-- Index of the first occurrence of `pat` in `s` (Rust `str::find` for
a substring pattern), or `none` when `pat` does not occur in `s`. -/
def findSub (pat : List Char) : List Char → Option Nat
  | [] => if pat = [] then some 0 else none
  | c :: rest =>
    if pat.isPrefixOf (c :: rest) then some 0
    else (findSub pat rest).map (· + 1)

theorem findSub_some_decompose {pat s : List Char} {i : Nat}
    (h : findSub pat s = some i) :
    s.take i ++ pat ++ s.drop (i + pat.length) = s := by
  induction s generalizing i with
  | nil =>
    simp only [findSub] at h
    split at h
    · rename_i hp
      subst hp
      obtain rfl : (0 : Nat) = i := by simpa using h
      simp
    · simp at h
  | cons c rest ih =>
    rw [findSub] at h
    split at h
    · rename_i hpre
      obtain rfl : (0 : Nat) = i := by simpa using h
      have hfix := List.prefix_iff_eq_take.mp (List.isPrefixOf_iff_prefix.mp hpre)
      simp only [List.take_zero, List.nil_append, Nat.zero_add]
      nth_rewrite 1 [hfix]
      exact List.take_append_drop _ _
    · rcases hj : findSub pat rest with _ | j
      · rw [hj] at h; simp at h
      · rw [hj] at h
        simp only [Option.map_some'] at h
        obtain rfl : j + 1 = i := by simpa using h
        have hrest := ih hj
        have hdrop : (c :: rest).drop (j + 1 + pat.length) = rest.drop (j + pat.length) := by
          have : j + 1 + pat.length = (j + pat.length) + 1 := by omega
          rw [this, List.drop_succ_cons]
        rw [List.take_succ_cons, hdrop]
        simpa using hrest

theorem findSub_some_bound {pat s : List Char} {i : Nat}
    (h : findSub pat s = some i) : i + pat.length ≤ s.length := by
  induction s generalizing i with
  | nil =>
    simp only [findSub] at h
    split at h
    · rename_i hp
      subst hp
      obtain rfl : (0 : Nat) = i := by simpa using h
      simp
    · simp at h
  | cons c rest ih =>
    rw [findSub] at h
    split at h
    · rename_i hpre
      obtain rfl : (0 : Nat) = i := by simpa using h
      have := (List.isPrefixOf_iff_prefix.mp hpre).length_le
      simpa using this
    · rcases hj : findSub pat rest with _ | j
      · rw [hj] at h; simp at h
      · rw [hj] at h
        simp only [Option.map_some'] at h
        obtain rfl : j + 1 = i := by simpa using h
        have := ih hj
        simp only [List.length_cons]
        omega

theorem findSub_nil (s : List Char) : findSub [] s = some 0 := by
  cases s <;> simp [findSub, List.isPrefixOf]

/-- If `pat` occurs in `s`, appending more input does not change the
position of the first occurrence. -/
theorem findSub_append_left {pat s t : List Char} {i : Nat}
    (h : findSub pat s = some i) : findSub pat (s ++ t) = some i := by
  induction s generalizing i with
  | nil =>
    simp only [findSub] at h
    split at h
    · rename_i hp
      subst hp
      obtain rfl : (0 : Nat) = i := by simpa using h
      simpa using findSub_nil t
    · simp at h
  | cons c rest ih =>
    rw [findSub] at h
    split at h
    · rename_i hpre
      obtain rfl : (0 : Nat) = i := by simpa using h
      have hp2 : pat.isPrefixOf (c :: (rest ++ t)) := by
        rw [List.isPrefixOf_iff_prefix]
        rw [← List.cons_append]
        exact (List.isPrefixOf_iff_prefix.mp hpre).trans (List.prefix_append _ _)
      show findSub pat (c :: (rest ++ t)) = some 0
      simp only [findSub]
      rw [if_pos hp2]
    · rename_i hnpre
      rcases hj : findSub pat rest with _ | j
      · rw [hj] at h; simp at h
      · rw [hj] at h
        simp only [Option.map_some'] at h
        obtain rfl : j + 1 = i := by simpa using h
        have hb := findSub_some_bound hj
        have hnpre' : ¬ pat.isPrefixOf (c :: (rest ++ t)) := by
          intro hcon
          apply hnpre
          rw [List.isPrefixOf_iff_prefix] at hcon ⊢
          rw [List.prefix_iff_eq_take] at hcon ⊢
          have hlen : pat.length ≤ (c :: rest).length := by
            simp only [List.length_cons]; omega
          rw [← List.cons_append, List.take_append_of_le_length hlen] at hcon
          exact hcon
        show findSub pat (c :: (rest ++ t)) = some (j + 1)
        simp only [findSub]
        rw [if_neg hnpre', ih hj]
        rfl

/-- A pattern containing a character that `s` lacks does not occur in `s`. -/
theorem findSub_none_of_not_mem {pat s : List Char} {c : Char}
    (hc : c ∈ pat) (hs : c ∉ s) : findSub pat s = none := by
  induction s with
  | nil =>
    have : pat ≠ [] := by intro h; subst h; simp at hc
    simp [findSub, this]
  | cons a rest ih =>
    rw [findSub]
    split
    · rename_i hpre
      exact absurd ((List.isPrefixOf_iff_prefix.mp hpre).subset hc) hs
    · have : c ∉ rest := fun h => hs (List.mem_cons_of_mem _ h)
      rw [ih this]
      rfl

end FirstOfficer

namespace FirstOfficer

/-! ## JSON values

`serde_json::Value`, up to the number representation (irrelevant here).
The external parsing/serialization functions of `serde_json` are passed
as parameters (`parseArgs`, `serJson`) where the code calls them. -/

inductive Json where
  | null : Json
  | bool (b : Bool) : Json
  | num (n : Int) : Json
  | str (s : String) : Json
  | arr (elems : List Json) : Json
  | obj (fields : List (String × Json)) : Json

/-- `serde_json::Value::Object(Default::default())` — the empty object. -/
def Json.emptyObject : Json := Json.obj []

/-! ## Model renamer (`src/rename.rs`) -/

/-- `replace_version_dots`: replace dots that sit between two ASCII
digits by dashes; the digit tests look at the original character array. -/
def rvdAux : Option Char → List Char → List Char
  | _, [] => []
  | prev, c :: rest =>
    (if (c == '.')
        && (match prev with | some p => p.isDigit | none => false)
        && (match rest with | d :: _ => d.isDigit | [] => false)
     then '-' else c) :: rvdAux (some c) rest

def replace_version_dots (s : List Char) : List Char :=
  rvdAux none s

/-- Split a character list on a separator character (Rust `str::split`):
always returns at least one (possibly empty) piece. -/
def splitOnChar (sep : Char) : List Char → List (List Char)
  | [] => [[]]
  | c :: rest =>
    let r := splitOnChar sep rest
    if c == sep then [] :: r
    else
      match r with
      | h :: t => (c :: h) :: t
      | [] => [[c]]

/-- Does the segment start with an ASCII digit (a "version segment")? -/
def segIsVersion (seg : List Char) : Bool :=
  match seg with
  | [] => false
  | c :: _ => c.isDigit

/-- `auto_rename`: pattern-based forward rename for claude models.
Returns `none` when no transformation is needed. -/
def auto_rename (name : String) : Option String :=
  let cs := name.toList
  let pre := "claude-".toList
  if pre.isPrefixOf cs then
    let rest := cs.drop 7
    let segments := splitOnChar '-' rest
    match segments with
    | [] => none
    | s0 :: _ =>
      if segIsVersion s0 then
        -- Version-first: claude-{version segments}-{variant segments}
        let versionSegs := segments.takeWhile segIsVersion
        let variantSegs := segments.dropWhile segIsVersion
        if variantSegs.isEmpty then
          none
        else
          let version_raw := List.intercalate ['-'] versionSegs
          let variant := List.intercalate ['-'] variantSegs
          some (String.mk (pre ++ variant ++ '-' :: replace_version_dots version_raw))
      else
        -- Variant-first: just normalize dots in the whole thing.
        let normalized := replace_version_dots rest
        if normalized == rest then none
        else some (String.mk (pre ++ normalized))
  else
    none

/-- The renamer's state: immutable custom maps plus the mutable learned
reverse map (association lists standing in for `HashMap`). -/
structure ModelRenamer where
  auto_enabled : Bool
  custom_forward : List (String × String)
  custom_reverse : List (String × String)
  learned_reverse : List (String × String)

/-- Map an upstream model ID to its display name
(custom mapping, else auto rule when enabled, else unchanged). -/
def ModelRenamer.rename (r : ModelRenamer) (upstream_name : String) : String :=
  match r.custom_forward.lookup upstream_name with
  | some custom => custom
  | none =>
    if r.auto_enabled then
      match auto_rename upstream_name with
      | some renamed => renamed
      | none => upstream_name
    else upstream_name

/-- Record a learned upstream↔display mapping (no-op when equal). -/
def ModelRenamer.register (r : ModelRenamer) (upstream_name display_name : String) :
    ModelRenamer :=
  if upstream_name ≠ display_name then
    { r with learned_reverse := (display_name, upstream_name) :: r.learned_reverse }
  else r

/-- Map a display name back to the upstream model ID
(custom → learned → pass through). -/
def ModelRenamer.resolve (r : ModelRenamer) (display_name : String) : String :=
  match r.custom_reverse.lookup display_name with
  | some custom => custom
  | none =>
    match r.learned_reverse.lookup display_name with
    | some learned => learned
    | none => display_name

example : auto_rename "claude-3.5-sonnet" = some "claude-sonnet-3-5" := by decide
example : auto_rename "claude-sonnet-4.5" = some "claude-sonnet-4-5" := by decide
example : auto_rename "claude-opus-4.6-fast" = some "claude-opus-4-6-fast" := by decide
example : auto_rename "claude-sonnet-4" = none := by decide
example : auto_rename "gemini-2.5-pro" = none := by decide
example : replace_version_dots "v2.beta".toList = "v2.beta".toList := by decide
example : replace_version_dots ".5".toList = ".5".toList := by decide

end FirstOfficer

namespace FirstOfficer

/-! ## Anthropic request types (`src/translate/types.rs`) -/

structure TextBlock where
  text : String
deriving DecidableEq

structure ImageSource where
  source_type : String
  media_type : String
  data : String
deriving DecidableEq

structure ImageBlock where
  source : ImageSource
deriving DecidableEq

structure ToolResultBlock where
  tool_use_id : String
  content : String
  is_error : Option Bool
deriving DecidableEq

structure ToolUseBlock where
  id : String
  name : String
  input : Json

structure ThinkingBlock where
  thinking : String
deriving DecidableEq

inductive UserContentBlock where
  | text (b : TextBlock)
  | image (b : ImageBlock)
  | toolResult (b : ToolResultBlock)
deriving DecidableEq

inductive AssistantContentBlock where
  | text (b : TextBlock)
  | toolUse (b : ToolUseBlock)
  | thinking (b : ThinkingBlock)

inductive UserContent where
  | text (s : String)
  | blocks (bs : List UserContentBlock)
deriving DecidableEq

inductive AssistantContent where
  | text (s : String)
  | blocks (bs : List AssistantContentBlock)

inductive AnthropicMessage where
  | user (content : UserContent)
  | assistant (content : AssistantContent)

inductive SystemPrompt where
  | text (s : String)
  | blocks (bs : List TextBlock)
deriving DecidableEq

structure Metadata where
  user_id : Option String
deriving DecidableEq

structure ThinkingConfig where
  config_type : String
  budget_tokens : Option Nat
deriving DecidableEq

structure AnthropicTool where
  name : String
  description : Option String
  input_schema : Json

structure AnthropicToolChoice where
  choice_type : String
  name : Option String
deriving DecidableEq

structure MessagesRequest where
  model : String
  messages : List AnthropicMessage
  max_tokens : Nat
  system : Option SystemPrompt
  metadata : Option Metadata
  stop_sequences : Option (List String)
  stream : Option Bool
  temperature : Option Float
  top_p : Option Float
  top_k : Option Nat
  tools : Option (List AnthropicTool)
  tool_choice : Option AnthropicToolChoice
  thinking : Option ThinkingConfig
  service_tier : Option String

/-! ## OpenAI request types (`src/copilot/types.rs`) -/

structure ImageUrl where
  url : String
  detail : Option String
deriving DecidableEq

inductive ContentPart where
  | text (text : String)
  | imageUrl (image_url : ImageUrl)
deriving DecidableEq

inductive Content where
  | text (s : String)
  | parts (ps : List ContentPart)
deriving DecidableEq

structure ToolCallFunction where
  name : String
  arguments : String
deriving DecidableEq

structure ToolCall where
  id : String
  call_type : String
  function : ToolCallFunction
deriving DecidableEq

structure Message where
  role : String
  content : Option Content
  name : Option String
  tool_calls : Option (List ToolCall)
  tool_call_id : Option String
deriving DecidableEq

inductive Stop where
  | single (s : String)
  | multiple (l : List String)
deriving DecidableEq

structure FunctionDef where
  name : String
  description : Option String
  parameters : Json

structure Tool where
  tool_type : String
  function : FunctionDef

structure NamedToolChoiceFunction where
  name : String
deriving DecidableEq

structure NamedToolChoice where
  choice_type : String
  function : NamedToolChoiceFunction
deriving DecidableEq

inductive ToolChoice where
  | str (s : String)
  | named (n : NamedToolChoice)
deriving DecidableEq

structure ChatCompletionsRequest where
  model : String
  messages : List Message
  max_tokens : Option Nat
  temperature : Option Float
  top_p : Option Float
  stop : Option Stop
  stream : Option Bool
  n : Option Nat
  frequency_penalty : Option Float
  presence_penalty : Option Float
  tools : Option (List Tool)
  tool_choice : Option ToolChoice
  user : Option String

end FirstOfficer

namespace FirstOfficer

/-! ## Request translation (`src/translate/request.rs`) -/

/-- Collapse `claude-sonnet-4-*` / `claude-opus-4-*` (non-empty suffix)
to the family name; otherwise pass through. -/
def normalize_model_name (model : String) : String :=
  let cs := model.toList
  let preSonnet := "claude-sonnet-4-".toList
  let preOpus := "claude-opus-4-".toList
  if preSonnet.isPrefixOf cs && !(cs.drop preSonnet.length).isEmpty then
    "claude-sonnet-4"
  else if preOpus.isPrefixOf cs && !(cs.drop preOpus.length).isEmpty then
    "claude-opus-4"
  else
    model

def system_prompt_to_string : SystemPrompt → String
  | .text s => s
  | .blocks bs => String.intercalate "\n\n" (bs.map (·.text))

/-- The `tool` message built for one `tool_result` block (the first
loop of `translate_user_message`). -/
def toolResultMsg : UserContentBlock → Option Message
  | .toolResult tr =>
    some { role := "tool", content := some (.text tr.content), name := none,
           tool_calls := none, tool_call_id := some tr.tool_use_id }
  | _ => none

/-- The messages built from the non-`tool_result` blocks of a user turn
(the second half of `translate_user_message`): nothing, or a single
`user` message in parts or joined-text form. -/
def userOtherMsgs (blocks : List UserContentBlock) : List Message :=
  let other_blocks := blocks.filter fun b =>
    match b with
    | .toolResult _ => false
    | _ => true
  if other_blocks.isEmpty then []
  else
    let has_image := other_blocks.any fun b =>
      match b with
      | .image _ => true
      | _ => false
    if has_image then
      let parts : List ContentPart := other_blocks.filterMap fun b =>
        match b with
        | .text t => some (.text t.text)
        | .image img =>
          some (.imageUrl
            { url := "data:" ++ img.source.media_type ++ ";base64," ++ img.source.data,
              detail := none })
        | .toolResult _ => none
      [{ role := "user", content := some (.parts parts), name := none,
         tool_calls := none, tool_call_id := none }]
    else
      let text := String.intercalate "\n\n" (other_blocks.filterMap fun b =>
        match b with
        | .text t => some t.text
        | _ => none)
      [{ role := "user", content := some (.text text), name := none,
         tool_calls := none, tool_call_id := none }]

def translate_user_message (content : UserContent) : List Message :=
  match content with
  | .text s =>
    [{ role := "user", content := some (.text s), name := none,
       tool_calls := none, tool_call_id := none }]
  | .blocks blocks =>
    -- Tool results must come first
    blocks.filterMap toolResultMsg ++ userOtherMsgs blocks

/-- `serJson` stands for `serde_json::to_string`; the Rust code applies
`unwrap_or_default`, turning a serialization failure into `""`. -/
def translate_assistant_message (serJson : Json → Option String)
    (content : AssistantContent) : List Message :=
  match content with
  | .text s =>
    [{ role := "assistant", content := some (.text s), name := none,
       tool_calls := none, tool_call_id := none }]
  | .blocks blocks =>
    let tool_use_blocks := blocks.filter fun b =>
      match b with
      | .toolUse _ => true
      | _ => false
    let text_content := String.intercalate "\n\n" (blocks.filterMap fun b =>
      match b with
      | .text t => some t.text
      | .thinking t => some t.thinking
      | _ => none)
    let contentField : Option Content :=
      if text_content.isEmpty then none else some (.text text_content)
    if tool_use_blocks.isEmpty then
      [{ role := "assistant", content := contentField, name := none,
         tool_calls := none, tool_call_id := none }]
    else
      let tool_calls : List ToolCall := tool_use_blocks.filterMap fun b =>
        match b with
        | .toolUse tu =>
          some { id := tu.id, call_type := "function",
                 function := { name := tu.name,
                               arguments := (serJson tu.input).getD "" } }
        | _ => none
      [{ role := "assistant", content := contentField, name := none,
         tool_calls := some tool_calls, tool_call_id := none }]

def translate_messages (serJson : Json → Option String)
    (messages : List AnthropicMessage) (system : Option SystemPrompt) :
    List Message :=
  let sysMsgs : List Message :=
    match system with
    | some sys =>
      [{ role := "system", content := some (.text (system_prompt_to_string sys)),
         name := none, tool_calls := none, tool_call_id := none }]
    | none => []
  sysMsgs ++ messages.flatMap fun msg =>
    match msg with
    | .user content => translate_user_message content
    | .assistant content => translate_assistant_message serJson content

def translate_tools (tools : List AnthropicTool) : List Tool :=
  tools.map fun t =>
    { tool_type := "function",
      function := { name := t.name, description := t.description,
                    parameters := t.input_schema } }

def translate_tool_choice (tc : AnthropicToolChoice) : Option ToolChoice :=
  if tc.choice_type = "auto" then some (.str "auto")
  else if tc.choice_type = "any" then some (.str "required")
  else if tc.choice_type = "none" then some (.str "none")
  else if tc.choice_type = "tool" then
    tc.name.map fun name =>
      .named { choice_type := "function", function := { name := name } }
  else none

def translate_request (serJson : Json → Option String)
    (req : MessagesRequest) : ChatCompletionsRequest :=
  { model := normalize_model_name req.model
    messages := translate_messages serJson req.messages req.system
    max_tokens := some req.max_tokens
    temperature := req.temperature
    top_p := req.top_p
    stop := req.stop_sequences.map fun s =>
      match s with
      | [single] => .single single
      | _ => .multiple s
    stream := req.stream
    n := none
    frequency_penalty := none
    presence_penalty := none
    tools := req.tools.map translate_tools
    tool_choice := req.tool_choice.bind translate_tool_choice
    user := req.metadata.bind (·.user_id) }

end FirstOfficer

namespace FirstOfficer

/-! ## OpenAI response types (`src/copilot/types.rs`) -/

structure PromptTokensDetails where
  cached_tokens : Nat
deriving DecidableEq

structure Usage where
  prompt_tokens : Nat
  completion_tokens : Nat
  total_tokens : Nat
  prompt_tokens_details : Option PromptTokensDetails
deriving DecidableEq

structure ResponseMessage where
  role : String
  content : Option String
  tool_calls : Option (List ToolCall)
deriving DecidableEq

structure Choice where
  index : Nat
  message : ResponseMessage
  finish_reason : Option String
  logprobs : Option Json

structure ChatCompletionResponse where
  id : String
  object : String
  created : Nat
  model : String
  choices : List Choice
  system_fingerprint : Option String
  usage : Option Usage

/-! ## Anthropic response types (`src/translate/types.rs`) -/

inductive StopReason where
  | endTurn
  | maxTokens
  | stopSequence
  | toolUse
  | pauseTurn
  | refusal
deriving DecidableEq

structure AnthropicUsage where
  input_tokens : Nat
  output_tokens : Nat
  cache_creation_input_tokens : Option Nat
  cache_read_input_tokens : Option Nat
deriving DecidableEq

structure MessagesResponse where
  id : String
  response_type : String
  role : String
  content : List AssistantContentBlock
  model : String
  stop_reason : Option StopReason
  stop_sequence : Option String
  usage : AnthropicUsage

/-! ## Response translation (`src/translate/response.rs`) -/

def map_stop_reason (reason : String) : StopReason :=
  if reason = "stop" then .endTurn
  else if reason = "length" then .maxTokens
  else if reason = "tool_calls" then .toolUse
  else if reason = "content_filter" then .endTurn
  else .endTurn

/-- `parseArgs` stands for `serde_json::from_str`; a parse failure falls
back to the empty object. -/
def translate_tool_call (parseArgs : String → Option Json) (tc : ToolCall) :
    AssistantContentBlock :=
  .toolUse { id := tc.id, name := tc.function.name,
             input := (parseArgs tc.function.arguments).getD Json.emptyObject }

/-- One iteration of the `for (i, choice)` loop of `translate_response`:
push a text block for non-empty content, push tool blocks, update the
stop reason. -/
def respStep (parseArgs : String → Option Json)
    (acc : List AssistantContentBlock × List AssistantContentBlock × Option StopReason)
    (ic : Nat × Choice) :
    List AssistantContentBlock × List AssistantContentBlock × Option StopReason :=
  let texts := acc.1
  let tools := acc.2.1
  let sr := acc.2.2
  let i := ic.1
  let choice := ic.2
  let texts :=
    match choice.message.content with
    | some content => if content ≠ "" then texts ++ [.text ⟨content⟩] else texts
    | none => texts
  let tools :=
    match choice.message.tool_calls with
    | some tool_calls => tools ++ tool_calls.map (translate_tool_call parseArgs)
    | none => tools
  let sr := if i = 0 then choice.finish_reason.map map_stop_reason else sr
  let sr := if choice.finish_reason = some "tool_calls" then some .toolUse else sr
  (texts, tools, sr)

def translate_response (parseArgs : String → Option Json)
    (resp : ChatCompletionResponse) : MessagesResponse :=
  let acc := resp.choices.enum.foldl (respStep parseArgs) ([], [], none)
  let content := acc.1 ++ acc.2.1
  let usageTriple : Nat × Nat × Nat :=
    match resp.usage with
    | some u =>
      let cached := (u.prompt_tokens_details.map (·.cached_tokens)).getD 0
      (u.prompt_tokens - cached, u.completion_tokens, cached)
    | none => (0, 0, 0)
  { id := resp.id
    response_type := "message"
    role := "assistant"
    model := resp.model
    content := content
    stop_reason := acc.2.2
    stop_sequence := none
    usage :=
      { input_tokens := usageTriple.1
        output_tokens := usageTriple.2.1
        cache_creation_input_tokens := none
        cache_read_input_tokens :=
          if usageTriple.2.2 > 0 then some usageTriple.2.2 else none } }

/-! ## Token cache (`src/auth/cache.rs`)

The cache is pure state here: `now` (unix seconds) and the outcome of
the upstream exchange (`fetch_copilot_token`) are passed in as values,
since the Rust function's only effects are that HTTP call and the map
mutation. -/

/-- `EXPIRY_BUFFER_SECS`. -/
def EXPIRY_BUFFER_SECS : Nat := 120

structure CachedToken where
  copilot_token : String
  expires_at : Nat
deriving DecidableEq

def CachedToken.is_valid (e : CachedToken) (now : Nat) : Bool :=
  e.expires_at > now + EXPIRY_BUFFER_SECS

structure CopilotTokenResponse where
  token : String
  refresh_in : Nat
  expires_at : Nat
deriving DecidableEq

abbrev TokenCacheState := List (String × CachedToken)

/-- `TokenCache::get_copilot_token`: serve from cache when the entry is
valid, otherwise use the exchange outcome and insert it.  Returns the
Copilot token and the updated cache. -/
def get_copilot_token (cache : TokenCacheState) (now : Nat) (gh_token : String)
    (exchange : Except String CopilotTokenResponse) :
    Except String (String × TokenCacheState) :=
  let fast : Option String :=
    match cache.lookup gh_token with
    | some entry => if entry.is_valid now then some entry.copilot_token else none
    | none => none
  match fast with
  | some tok => .ok (tok, cache)
  | none =>
    match exchange with
    | .error e => .error e
    | .ok resp =>
      .ok (resp.token,
           (gh_token, { copilot_token := resp.token, expires_at := resp.expires_at })
             :: cache)

end FirstOfficer

namespace FirstOfficer

/-! ## Streaming chunk types (`src/copilot/types.rs`) -/

structure DeltaFunction where
  name : Option String
  arguments : Option String
deriving DecidableEq

structure DeltaToolCall where
  index : Nat
  id : Option String
  call_type : Option String
  function : Option DeltaFunction
deriving DecidableEq

structure Delta where
  content : Option String
  role : Option String
  tool_calls : Option (List DeltaToolCall)
deriving DecidableEq

structure ChunkChoice where
  index : Nat
  delta : Delta
  finish_reason : Option String
  logprobs : Option Json

structure ChatCompletionChunk where
  id : String
  object : String
  created : Nat
  model : String
  choices : List ChunkChoice
  system_fingerprint : Option String
  usage : Option Usage

/-! ## Streaming event types and state (`src/translate/types.rs`) -/

structure MessageStartBody where
  id : String
  message_type : String
  role : String
  content : List Unit
  model : String
  stop_reason : Option StopReason
  stop_sequence : Option String
  usage : AnthropicUsage
deriving DecidableEq

inductive ContentBlockStartBody where
  | text (text : String)
  | toolUse (id : String) (name : String) (input : Json)
  | thinking (thinking : String)

inductive ContentDelta where
  | text (text : String)
  | inputJson (partial_json : String)
  | thinking (thinking : String)
  | signature (signature : String)
deriving DecidableEq

structure MessageDeltaBody where
  stop_reason : Option StopReason
  stop_sequence : Option String
deriving DecidableEq

structure StreamError where
  error_type : String
  message : String
deriving DecidableEq

inductive StreamEvent where
  | messageStart (message : MessageStartBody)
  | contentBlockStart (index : Nat) (content_block : ContentBlockStartBody)
  | contentBlockDelta (index : Nat) (delta : ContentDelta)
  | contentBlockStop (index : Nat)
  | messageDelta (delta : MessageDeltaBody) (usage : Option AnthropicUsage)
  | messageStop
  | ping
  | error (e : StreamError)

structure ToolCallState where
  id : String
  name : String
  anthropic_block_index : Nat
deriving DecidableEq

structure StreamState where
  message_start_sent : Bool
  content_block_index : Nat
  content_block_open : Bool
  tool_calls : List (Nat × ToolCallState)
deriving DecidableEq

def StreamState.new : StreamState :=
  { message_start_sent := false, content_block_index := 0,
    content_block_open := false, tool_calls := [] }

def StreamState.is_tool_block_open (s : StreamState) : Bool :=
  s.content_block_open &&
    s.tool_calls.any fun tc => tc.2.anthropic_block_index == s.content_block_index

/-- `HashMap::insert`: the new binding replaces any old binding of the key. -/
def toolCallsInsert (k : Nat) (v : ToolCallState)
    (m : List (Nat × ToolCallState)) : List (Nat × ToolCallState) :=
  (k, v) :: m.filter fun p => p.1 ≠ k

/-! ## Stream translation (`src/translate/stream.rs`)

`translate_chunk` pushes events into one vector while mutating the
state; it is split here into its four sequential sections (first-chunk
`message_start`, text delta, tool-call deltas, finish), whose event
lists are concatenated in order.  `map_stop_reason` in `stream.rs` is
textually identical to the one in `response.rs`; the single definition
above serves for both. -/

def extract_input_usage (chunk : ChatCompletionChunk) : Nat × Nat :=
  match chunk.usage with
  | some u =>
    let cached := (u.prompt_tokens_details.map (·.cached_tokens)).getD 0
    (u.prompt_tokens - cached, cached)
  | none => (0, 0)

def startStep (chunk : ChatCompletionChunk) (s : StreamState) :
    List StreamEvent × StreamState :=
  if s.message_start_sent then ([], s)
  else
    let iu := extract_input_usage chunk
    ([.messageStart
        { id := chunk.id, message_type := "message", role := "assistant",
          content := [], model := chunk.model, stop_reason := none,
          stop_sequence := none,
          usage := { input_tokens := iu.1, output_tokens := 0,
                     cache_creation_input_tokens := none,
                     cache_read_input_tokens := if iu.2 > 0 then some iu.2 else none } }],
     { s with message_start_sent := true })

def textStep (content : Option String) (s : StreamState) :
    List StreamEvent × StreamState :=
  match content with
  | none => ([], s)
  | some text =>
    -- If a tool block is open, close it before starting a text block
    let closePart :=
      if s.is_tool_block_open then
        ([StreamEvent.contentBlockStop s.content_block_index],
         { s with content_block_index := s.content_block_index + 1,
                  content_block_open := false })
      else (([] : List StreamEvent), s)
    let sA := closePart.2
    let openPart :=
      if !sA.content_block_open then
        ([StreamEvent.contentBlockStart sA.content_block_index (.text "")],
         { sA with content_block_open := true })
      else (([] : List StreamEvent), sA)
    let sB := openPart.2
    (closePart.1 ++ openPart.1 ++
       [.contentBlockDelta sB.content_block_index (.text text)], sB)

def toolEntryStep (tc : DeltaToolCall) (s : StreamState) :
    List StreamEvent × StreamState :=
  -- New tool call starting (has id and function name)
  let startPart : List StreamEvent × StreamState :=
    match tc.id, tc.function with
    | some id, some func =>
      match func.name with
      | some name =>
        -- Close any previously open block
        let closePart :=
          if s.content_block_open then
            ([StreamEvent.contentBlockStop s.content_block_index],
             { s with content_block_index := s.content_block_index + 1,
                      content_block_open := false })
          else (([] : List StreamEvent), s)
        let sC := closePart.2
        let anthropic_block_index := sC.content_block_index
        let sD :=
          { sC with
              tool_calls := toolCallsInsert tc.index
                { id := id, name := name,
                  anthropic_block_index := anthropic_block_index } sC.tool_calls,
              content_block_open := true }
        (closePart.1 ++
           [.contentBlockStart anthropic_block_index
              (.toolUse id name Json.emptyObject)], sD)
      | none => (([] : List StreamEvent), s)
    | _, _ => (([] : List StreamEvent), s)
  let s1 := startPart.2
  -- Tool call arguments delta
  let argEvents : List StreamEvent :=
    match tc.function with
    | some func =>
      match func.arguments with
      | some arguments =>
        match s1.tool_calls.lookup tc.index with
        | some tcState =>
          [.contentBlockDelta tcState.anthropic_block_index (.inputJson arguments)]
        | none => []
      | none => []
    | none => []
  (startPart.1 ++ argEvents, s1)

def toolLoop : List DeltaToolCall → StreamState → List StreamEvent × StreamState
  | [], s => ([], s)
  | tc :: rest, s =>
    let head := toolEntryStep tc s
    let tail := toolLoop rest head.2
    (head.1 ++ tail.1, tail.2)

def toolStep (tool_calls : Option (List DeltaToolCall)) (s : StreamState) :
    List StreamEvent × StreamState :=
  match tool_calls with
  | none => ([], s)
  | some tcs => toolLoop tcs s

def finishStep (chunk : ChatCompletionChunk) (finish_reason : Option String)
    (s : StreamState) : List StreamEvent × StreamState :=
  match finish_reason with
  | none => ([], s)
  | some reason =>
    let closePart :=
      if s.content_block_open then
        ([StreamEvent.contentBlockStop s.content_block_index],
         { s with content_block_open := false })
      else (([] : List StreamEvent), s)
    let iu := extract_input_usage chunk
    (closePart.1 ++
       [.messageDelta
          { stop_reason := some (map_stop_reason reason), stop_sequence := none }
          (some { input_tokens := iu.1,
                  output_tokens := (chunk.usage.map (·.completion_tokens)).getD 0,
                  cache_creation_input_tokens := none,
                  cache_read_input_tokens := if iu.2 > 0 then some iu.2 else none }),
        .messageStop],
     closePart.2)

def translate_chunk (chunk : ChatCompletionChunk) (s : StreamState) :
    List StreamEvent × StreamState :=
  match chunk.choices with
  | [] => ([], s)
  | choice :: _ =>
    let p1 := startStep chunk s
    let p2 := textStep choice.delta.content p1.2
    let p3 := toolStep choice.delta.tool_calls p2.2
    let p4 := finishStep chunk choice.finish_reason p3.2
    (p1.1 ++ p2.1 ++ p3.1 ++ p4.1, p4.2)

/-- Run `translate_chunk` over a whole upstream stream (the
`handle_streaming` loop), concatenating the emitted events. -/
def runChunks : List ChatCompletionChunk → StreamState →
    List StreamEvent × StreamState
  | [], s => ([], s)
  | c :: cs, s =>
    let head := translate_chunk c s
    let tail := runChunks cs head.2
    (head.1 ++ tail.1, tail.2)

def processChunks (cs : List ChatCompletionChunk) : List StreamEvent :=
  (runChunks cs StreamState.new).1

end FirstOfficer

namespace FirstOfficer

/-! ## Streaming thinking parser (`src/translate/thinking.rs`)

Text is handled as `List Char`.  The `loop` of `push` is written with a
fuel argument; each non-breaking iteration drains at least
`"<thinking>".length = 10` characters, so the fuel `buffer.length + 1`
passed by `push` is never exhausted. -/

def openTag : List Char := "<thinking>".toList

def closeTag : List Char := "</thinking>".toList

inductive ThinkingEvent where
  | thinkingStart
  | thinkingDelta (t : List Char)
  | thinkingEnd
  | textDelta (t : List Char)
deriving DecidableEq

structure ThinkingStreamParser where
  buffer : List Char
  in_thinking : Bool
deriving DecidableEq

def ThinkingStreamParser.new : ThinkingStreamParser :=
  { buffer := [], in_thinking := false }

def pushLoop : Nat → Bool → List Char → List ThinkingEvent × Bool × List Char
  | 0, in_thinking, buf => ([], in_thinking, buf)
  | fuel + 1, true, buf =>
    -- Inside a thinking block - look for closing tag
    match findSub closeTag buf with
    | some end_idx =>
      let evs :=
        (if end_idx > 0 then [ThinkingEvent.thinkingDelta (buf.take end_idx)] else [])
          ++ [ThinkingEvent.thinkingEnd]
      let next := pushLoop fuel false (buf.drop (end_idx + closeTag.length))
      (evs ++ next.1, next.2)
    | none =>
      -- Keep a reserve in case the closing tag is split across chunks
      let reserve := min closeTag.length buf.length
      if buf.length > reserve then
        let emit_len := buf.length - reserve
        let to_emit := buf.take emit_len
        ((if to_emit.isEmpty then [] else [ThinkingEvent.thinkingDelta to_emit]),
         true, buf.drop emit_len)
      else ([], true, buf)
  | fuel + 1, false, buf =>
    -- Outside thinking block - look for opening tag
    match findSub openTag buf with
    | some start_idx =>
      let prefixEvs :=
        if start_idx > 0 then
          let pre := buf.take start_idx
          if pre.isEmpty then [] else [ThinkingEvent.textDelta pre]
        else []
      let evs := prefixEvs ++ [ThinkingEvent.thinkingStart]
      let next := pushLoop fuel true (buf.drop (start_idx + openTag.length))
      (evs ++ next.1, next.2)
    | none =>
      -- Keep a reserve in case the opening tag is split across chunks
      let reserve := min openTag.length buf.length
      if buf.length > reserve then
        let emit_len := buf.length - reserve
        let to_emit := buf.take emit_len
        ((if to_emit.isEmpty then [] else [ThinkingEvent.textDelta to_emit]),
         false, buf.drop emit_len)
      else ([], false, buf)

def ThinkingStreamParser.push (p : ThinkingStreamParser) (chunk : List Char) :
    List ThinkingEvent × ThinkingStreamParser :=
  let buf := p.buffer ++ chunk
  let r := pushLoop (buf.length + 1) p.in_thinking buf
  (r.1, { buffer := r.2.2, in_thinking := r.2.1 })

def ThinkingStreamParser.finish (p : ThinkingStreamParser) : Option ThinkingEvent :=
  if !p.buffer.isEmpty then
    if p.in_thinking then some (.thinkingDelta p.buffer)
    else some (.textDelta p.buffer)
  else none

/-- Feed a whole sequence of chunks through the parser. -/
def pushAll : List (List Char) → ThinkingStreamParser →
    List ThinkingEvent × ThinkingStreamParser
  | [], p => ([], p)
  | c :: cs, p =>
    let head := p.push c
    let tail := pushAll cs head.2
    (head.1 ++ tail.1, tail.2)

/-- Payload of an event, with the start/end markers rendered as the
literal tags (the reading used by the round-trip claim). -/
def renderEvent : ThinkingEvent → List Char
  | .thinkingStart => openTag
  | .thinkingEnd => closeTag
  | .thinkingDelta t => t
  | .textDelta t => t

def renderEvents (evs : List ThinkingEvent) : List Char :=
  (evs.map renderEvent).flatten

def renderFinish : Option ThinkingEvent → List Char
  | some e => renderEvent e
  | none => []

/-! ## SSE framer (`src/routes/messages.rs`)

`extract_next_sse_data` / `parse_sse_data`, with the byte buffer as
`List Char`.  The `loop` in `extract_next_sse_data` drains at least two
characters per iteration, so the fuel `buffer.length + 1` is never
exhausted. -/

def lflf : List Char := ['\n', '\n']

def crlfcrlf : List Char := ['\r', '\n', '\r', '\n']

/-- Rust `str::lines`: split at `\n`, dropping one optional trailing
line ending, and stripping a `\r` that preceded a `\n`. -/
def stripCR (l : List Char) : List Char :=
  if l.getLast? = some '\r' then l.dropLast else l

def rustLines (s : List Char) : List (List Char) :=
  let parts := splitOnChar '\n' s
  match parts.getLast? with
  | some [] => parts.dropLast.map stripCR
  | _ => parts.dropLast.map stripCR ++ parts.getLast?.toList

/-- `parse_sse_data`: collect the `data:` lines of one event block
(tolerating leading whitespace and one space after the colon), joined
with `\n`; `none` when the block carries no data line. -/
def parse_sse_data (block : List Char) : Option (List Char) :=
  let data_parts := (rustLines block).filterMap fun line =>
    let line := line.dropWhile Char.isWhitespace
    if "data:".toList.isPrefixOf line then
      let rest := line.drop 5
      let value := match rest with
        | ' ' :: r => r
        | _ => rest
      some value
    else none
  if data_parts.isEmpty then none
  else some (List.intercalate ['\n'] data_parts)

def extractAux : Nat → List Char → Option (List Char) × List Char
  | 0, buf => (none, buf)
  | fuel + 1, buf =>
    match findSub lflf buf with
    | some pos =>
      let event_block := buf.take pos
      let rest := buf.drop (pos + 2)
      match parse_sse_data event_block with
      | some data => (some data, rest)
      | none => extractAux fuel rest
    | none =>
      -- Also try \r\n\r\n
      match findSub crlfcrlf buf with
      | some pos =>
        let event_block := buf.take pos
        let rest := buf.drop (pos + 4)
        match parse_sse_data event_block with
        | some data => (some data, rest)
        | none => extractAux fuel rest
      | none => (none, buf)

def extract_next_sse_data (buf : List Char) : Option (List Char) × List Char :=
  extractAux (buf.length + 1) buf

/-- The `while let Some(event_data) = extract_next_sse_data(..)` loop of
`handle_streaming`: drain every complete event from the buffer. -/
def drainAux : Nat → List Char → List (List Char) × List Char
  | 0, buf => ([], buf)
  | fuel + 1, buf =>
    match extract_next_sse_data buf with
    | (some d, b) =>
      let r := drainAux fuel b
      (d :: r.1, r.2)
    | (none, b) => ([], b)

def drainSSE (buf : List Char) : List (List Char) × List Char :=
  drainAux (buf.length + 1) buf

/-- Feed the upstream byte stream chunk by chunk, draining after each
chunk, and collect every extracted data string in order. -/
def feedSSE : List (List Char) → List Char → List (List Char)
  | [], _ => []
  | c :: cs, buf =>
    let r := drainSSE (buf ++ c)
    r.1 ++ feedSSE cs r.2

def sseOutputs (chunks : List (List Char)) : List (List Char) :=
  feedSSE chunks []

/-- One byte per chunk. -/
def byteChunks (s : List Char) : List (List Char) :=
  s.map fun c => [c]

/-- One SSE event block: every line followed by its end-of-line, and a
final empty line; `crlf` selects the `\r\n` flavour. -/
def sseBlock (lines : List (List Char)) (crlf : Bool) : List Char :=
  let eol : List Char := if crlf then ['\r', '\n'] else ['\n']
  (lines.map fun l => l ++ eol).flatten ++ eol

/-- Well-formed SSE byte stream: a concatenation of event blocks whose
lines contain no line-ending characters (the spec accepts both `\n\n`
and `\r\n\r\n` terminators). -/
inductive WFSSE : List Char → Prop where
  | nil : WFSSE []
  | block (lines : List (List Char)) (crlf : Bool) (rest : List Char) :
      lines ≠ [] →
      (∀ l ∈ lines, '\n' ∉ l ∧ '\r' ∉ l) →
      WFSSE rest →
      WFSSE (sseBlock lines crlf ++ rest)

end FirstOfficer

namespace FirstOfficer

/-! ## Concrete fixtures shared by the theorems -/

/-- A `serde_json::to_string` stand-in that always fails (no claim here
depends on actual JSON serialization). -/
def serFail : Json → Option String := fun _ => none

/-- A `serde_json::from_str` stand-in that always fails. -/
def parseFail : String → Option Json := fun _ => none

/-- The model-resolution step of `post_messages` followed by
`translate_request`: the route overwrites `req.model` with
`renamer.resolve(req.model)` before translating. -/
def postMessagesPipeline (r : ModelRenamer) (serJson : Json → Option String)
    (req : MessagesRequest) : ChatCompletionsRequest :=
  translate_request serJson { req with model := r.resolve req.model }

def c1Request : MessagesRequest :=
  { model := "claude-sonnet-4-5"
    messages := [.user (.text "hi")]
    max_tokens := 100
    system := none, metadata := none, stop_sequences := none
    stream := none, temperature := none, top_p := none, top_k := none
    tools := none, tool_choice := none, thinking := none, service_tier := none }

/-- Renamer state of scenario A: auto renaming on, no custom rules, the
reverse mapping for `claude-sonnet-4-5` learned from the model list. -/
def c1Renamer : ModelRenamer :=
  { auto_enabled := true, custom_forward := [], custom_reverse := []
    learned_reverse := [("claude-sonnet-4-5", "claude-sonnet-4.5")] }

/-! ## C1 -/

/-- C1 (counterexample): in scenario A the request body sent upstream
does *not* carry model `"claude-sonnet-4"`.  `resolve` first maps the
display name `claude-sonnet-4-5` to the learned upstream name
`claude-sonnet-4.5`, and `normalize_model_name` then leaves that name
alone because the character after `claude-sonnet-4` is a dot, not the
dash its prefix test requires. -/
theorem C1_counterexample :
    (postMessagesPipeline c1Renamer serFail c1Request).model ≠ "claude-sonnet-4" := by
  decide

/-- C1 (amended): in scenario A the upstream body has model
`"claude-sonnet-4.5"` (the learned upstream name, on which the
`claude-sonnet-4-*` family collapse does not fire) and messages
`[{role:"user", content:"hi"}]`. -/
theorem C1_amended (serJson : Json → Option String) :
    (postMessagesPipeline c1Renamer serJson c1Request).model = "claude-sonnet-4.5" ∧
    (postMessagesPipeline c1Renamer serJson c1Request).messages =
      [{ role := "user", content := some (.text "hi"), name := none,
         tool_calls := none, tool_call_id := none }] :=
  ⟨rfl, rfl⟩

/-! ## C9 -/

/-- C9: for every block-form user message, `translate_user_message`
emits the tool messages (one per `tool_result` block, in block order,
with the block's id and text) strictly before the remaining messages,
which are all plain `user` messages; and the literal example of
scenario B translates to exactly the expected two messages. -/
theorem C9_tool_results_first :
    (∀ blocks : List UserContentBlock,
      translate_user_message (.blocks blocks) =
        blocks.filterMap toolResultMsg ++ userOtherMsgs blocks ∧
      (∀ m ∈ blocks.filterMap toolResultMsg, m.role = "tool") ∧
      (∀ m ∈ userOtherMsgs blocks, m.role = "user")) ∧
    translate_user_message (.blocks
        [.text { text := "go" },
         .toolResult { tool_use_id := "t1", content := "ok", is_error := none },
         .text { text := "now" }]) =
      [{ role := "tool", content := some (.text "ok"), name := none,
         tool_calls := none, tool_call_id := some "t1" },
       { role := "user", content := some (.text "go\n\nnow"), name := none,
         tool_calls := none, tool_call_id := none }] := by
  constructor
  · intro blocks
    refine ⟨rfl, ?_, ?_⟩
    · intro m hm
      obtain ⟨b, _, hb⟩ := List.mem_filterMap.mp hm
      cases b with
      | toolResult tr => cases hb; rfl
      | text t => simp [toolResultMsg] at hb
      | image i => simp [toolResultMsg] at hb
    · intro m hm
      unfold userOtherMsgs at hm
      dsimp only at hm
      split at hm
      · simp at hm
      · split at hm
        · simp at hm
          subst hm
          rfl
        · simp at hm
          subst hm
          rfl
  · decide

/-! ## C10 -/

/-- C10: a chunk with an empty `choices` list produces no events and
leaves the stream state untouched (so, in particular, no
`message_start` is emitted and `message_start_sent` stays unset). -/
theorem C10_empty_choices_noop (chunk : ChatCompletionChunk) (s : StreamState)
    (h : chunk.choices = []) : translate_chunk chunk s = ([], s) := by
  unfold translate_chunk
  rw [h]

def emptyChoicesChunk : ChatCompletionChunk :=
  { id := "c1", object := "chat.completion.chunk", created := 1, model := "m",
    choices := [], system_fingerprint := none, usage := none }

def busyState : StreamState :=
  { message_start_sent := false, content_block_index := 3,
    content_block_open := true,
    tool_calls := [(0, { id := "call_1", name := "f", anthropic_block_index := 2 })] }

/-- C10 (witness): the hypothesis holds for a concrete chunk and the
conclusion follows from the theorem. -/
theorem C10_empty_choices_noop_witness :
    emptyChoicesChunk.choices = [] ∧
    translate_chunk emptyChoicesChunk busyState = ([], busyState) :=
  ⟨rfl, C10_empty_choices_noop emptyChoicesChunk busyState rfl⟩

/-! ## C3 -/

/-- C3 (counterexample): `get_copilot_token` does not guarantee
`expires_at > now + 120` for every returned token: with an empty cache
and an exchange that reports `expires_at = 0`, the fresh token is
cached and returned unchecked. -/
theorem C3_counterexample :
    ¬ (∀ (cache : TokenCacheState) (now : Nat) (gh : String)
         (exchange : Except String CopilotTokenResponse)
         (t : String) (cache' : TokenCacheState),
         get_copilot_token cache now gh exchange = .ok (t, cache') →
         ∀ e : CachedToken, cache'.lookup gh = some e →
           now + EXPIRY_BUFFER_SECS < e.expires_at) := by
  intro h
  have hc := h [] 1000 "gh" (.ok { token := "tok", refresh_in := 1500, expires_at := 0 })
    "tok" [("gh", { copilot_token := "tok", expires_at := 0 })] rfl
    { copilot_token := "tok", expires_at := 0 } rfl
  exact absurd hc (by decide)

/-- C3 (amended): the `expires_at > now + 120` guarantee holds exactly
for tokens served from the cache: when the cache holds a valid entry
for the credential, `get_copilot_token` returns that entry's token with
the cache unchanged (never consulting the exchange), and the entry
satisfies the expiry bound.  A token obtained by a fresh exchange is
returned and cached without any validity check. -/
theorem C3_cache_hit_valid (cache : TokenCacheState) (now : Nat) (gh : String)
    (exchange : Except String CopilotTokenResponse) (entry : CachedToken)
    (hl : cache.lookup gh = some entry) (hv : entry.is_valid now = true) :
    get_copilot_token cache now gh exchange = .ok (entry.copilot_token, cache) ∧
    now + EXPIRY_BUFFER_SECS < entry.expires_at := by
  constructor
  · simp [get_copilot_token, hl, hv]
  · have h2 : decide (entry.expires_at > now + EXPIRY_BUFFER_SECS) = true := hv
    exact of_decide_eq_true h2

/-- C3 (witness for the amended theorem). -/
theorem C3_cache_hit_valid_witness :
    ([("gh", { copilot_token := "tok", expires_at := 2000 })] : TokenCacheState).lookup "gh"
        = some { copilot_token := "tok", expires_at := 2000 } ∧
    CachedToken.is_valid { copilot_token := "tok", expires_at := 2000 } 100 = true ∧
    (get_copilot_token [("gh", { copilot_token := "tok", expires_at := 2000 })] 100 "gh"
        (.error "exchange down")
      = .ok ("tok", [("gh", { copilot_token := "tok", expires_at := 2000 })]) ∧
     100 + EXPIRY_BUFFER_SECS < 2000) :=
  ⟨by decide, by decide,
   C3_cache_hit_valid [("gh", { copilot_token := "tok", expires_at := 2000 })] 100 "gh"
     (.error "exchange down") { copilot_token := "tok", expires_at := 2000 }
     (by decide) (by decide)⟩

/-! ## C8 -/

/-- C8 (counterexample): with the custom rule `a → b`, the upstream ID
`u = "b"` renames to itself, `register` is a no-op, and `resolve("b")`
returns `"a"` (the inverted custom rule shadows identity), so
`resolve(rename(u)) ≠ u`. -/
theorem C8_counterexample :
    (let r : ModelRenamer :=
      { auto_enabled := true, custom_forward := [("a", "b")],
        custom_reverse := [("b", "a")], learned_reverse := [] }
     (r.register "b" (r.rename "b")).resolve (r.rename "b") ≠ "b") := by
  decide

/-- C8 (amended): `resolve(rename(u)) = u` after `register(u, rename(u))`
provided the custom reverse map has no rule for the display name
`rename(u)`, and — when the rename is the identity — the learned map
has no prior binding for `u` either.  (Both side conditions hold in
particular when no custom rules are configured and the learned map is
freshly built from a model list without name collisions.) -/
theorem C8_resolve_register_rename (r : ModelRenamer) (u : String)
    (hcr : r.custom_reverse.lookup (r.rename u) = none)
    (hlr : r.rename u = u → r.learned_reverse.lookup u = none) :
    (r.register u (r.rename u)).resolve (r.rename u) = u := by
  unfold ModelRenamer.register ModelRenamer.resolve
  by_cases hne : u ≠ r.rename u
  · rw [if_pos hne]
    simp only [hcr]
    simp [List.lookup]
  · rw [if_neg hne]
    push_neg at hne
    rw [← hne] at hcr ⊢
    rw [hcr, hlr hne.symm]

/-- C8 (witness for the amended theorem): the fresh auto-only renamer
learning `claude-sonnet-4.5 ↔ claude-sonnet-4-5` round-trips. -/
theorem C8_resolve_register_rename_witness :
    (let r : ModelRenamer :=
      { auto_enabled := true, custom_forward := [], custom_reverse := [],
        learned_reverse := [] }
     r.custom_reverse.lookup (r.rename "claude-sonnet-4.5") = none ∧
     (r.rename "claude-sonnet-4.5" = "claude-sonnet-4.5" →
        r.learned_reverse.lookup "claude-sonnet-4.5" = none) ∧
     (r.register "claude-sonnet-4.5" (r.rename "claude-sonnet-4.5")).resolve
        (r.rename "claude-sonnet-4.5") = "claude-sonnet-4.5") :=
  ⟨by decide, by decide,
   C8_resolve_register_rename _ "claude-sonnet-4.5" (by decide) (by decide)⟩

end FirstOfficer

namespace FirstOfficer

/-! ## C2 -/

/-- Text blocks one choice contributes (a single block when its content
is a non-empty string). -/
def choiceTextBlocks (c : Choice) : List AssistantContentBlock :=
  match c.message.content with
  | some content => if content ≠ "" then [.text { text := content }] else []
  | none => []

/-- Tool-use blocks one choice contributes (one per tool call). -/
def choiceToolBlocks (parseArgs : String → Option Json) (c : Choice) :
    List AssistantContentBlock :=
  match c.message.tool_calls with
  | some tool_calls => tool_calls.map (translate_tool_call parseArgs)
  | none => []

theorem respStep_fst (parseArgs : String → Option Json)
    (acc : List AssistantContentBlock × List AssistantContentBlock × Option StopReason)
    (ic : Nat × Choice) :
    (respStep parseArgs acc ic).1 = acc.1 ++ choiceTextBlocks ic.2 := by
  unfold respStep choiceTextBlocks
  dsimp only
  cases hc : ic.2.message.content with
  | none => simp
  | some content =>
    by_cases hne : content ≠ "" <;> simp [hne]

theorem respStep_snd_fst (parseArgs : String → Option Json)
    (acc : List AssistantContentBlock × List AssistantContentBlock × Option StopReason)
    (ic : Nat × Choice) :
    (respStep parseArgs acc ic).2.1 = acc.2.1 ++ choiceToolBlocks parseArgs ic.2 := by
  unfold respStep choiceToolBlocks
  dsimp only
  cases ht : ic.2.message.tool_calls with
  | none => simp
  | some tool_calls => simp

theorem respStep_foldl (parseArgs : String → Option Json)
    (l : List (Nat × Choice))
    (acc : List AssistantContentBlock × List AssistantContentBlock × Option StopReason) :
    (l.foldl (respStep parseArgs) acc).1
      = acc.1 ++ (l.map Prod.snd).flatMap choiceTextBlocks ∧
    (l.foldl (respStep parseArgs) acc).2.1
      = acc.2.1 ++ (l.map Prod.snd).flatMap (choiceToolBlocks parseArgs) := by
  induction l generalizing acc with
  | nil => simp
  | cons hd tl ih =>
    simp only [List.foldl_cons, List.map_cons, List.flatMap_cons]
    obtain ⟨ih1, ih2⟩ := ih (respStep parseArgs acc hd)
    rw [ih1, ih2, respStep_fst, respStep_snd_fst]
    simp

/-- C2 (amended): the translated content is built from *all* choices,
not `choices[0]` alone — in choice order, one text block per choice
whose content is a non-empty string, followed by one tool_use block per
tool call of each choice (input parsed from the arguments string, empty
object on parse failure); all text blocks still precede all tool_use
blocks. -/
theorem C2_content_all_choices (parseArgs : String → Option Json)
    (resp : ChatCompletionResponse) :
    (translate_response parseArgs resp).content =
      resp.choices.flatMap choiceTextBlocks
        ++ resp.choices.flatMap (choiceToolBlocks parseArgs) := by
  unfold translate_response
  dsimp only
  obtain ⟨h1, h2⟩ := respStep_foldl parseArgs resp.choices.enum ([], [], none)
  rw [h1, h2]
  simp [List.enum_map_snd]

def c2Choice0 : Choice :=
  { index := 0,
    message := { role := "assistant", content := some "first", tool_calls := none },
    finish_reason := some "stop", logprobs := none }

def c2Choice1 : Choice :=
  { index := 1,
    message := { role := "assistant", content := some "extra", tool_calls := none },
    finish_reason := none, logprobs := none }

def c2Resp : ChatCompletionResponse :=
  { id := "r", object := "chat.completion", created := 0, model := "m",
    choices := [c2Choice0, c2Choice1], system_fingerprint := none,
    usage := none }

/-- C2 (counterexample): on a response with a second choice carrying
content `"extra"`, the translated content is not the single text block
that `choices[0]` alone would give — the loop in `translate_response`
collects blocks from every choice. -/
theorem C2_counterexample :
    (translate_response parseFail c2Resp).content ≠
      [AssistantContentBlock.text { text := "first" }] := by
  intro h
  have hl := congrArg List.length h
  have h2 : (translate_response parseFail c2Resp).content.length = 2 := rfl
  rw [h2] at hl
  simp at hl

end FirstOfficer

namespace FirstOfficer

/-! ## C4: counting `message_start` / `message_stop` events -/

/-- Does the chunk carry a finish reason (on `choices[0]`, the only
choice `translate_chunk` reads)? -/
def hasFinish (c : ChatCompletionChunk) : Bool :=
  match c.choices with
  | [] => false
  | choice :: _ => choice.finish_reason.isSome

def isMessageStart : StreamEvent → Bool
  | .messageStart _ => true
  | _ => false

def isMessageStop : StreamEvent → Bool
  | .messageStop => true
  | _ => false

def countStart (evs : List StreamEvent) : Nat := evs.countP isMessageStart

def countStop (evs : List StreamEvent) : Nat := evs.countP isMessageStop

theorem startStep_events (chunk : ChatCompletionChunk) (s : StreamState) :
    countStart (startStep chunk s).1 = (if s.message_start_sent then 0 else 1) ∧
    countStop (startStep chunk s).1 = 0 ∧
    (startStep chunk s).2.message_start_sent = true ∧
    (startStep chunk s).2.content_block_index = s.content_block_index ∧
    (startStep chunk s).2.content_block_open = s.content_block_open ∧
    (startStep chunk s).2.tool_calls = s.tool_calls := by
  unfold startStep
  split <;>
    simp_all [countStart, countStop, List.countP_cons, isMessageStart, isMessageStop]

theorem textStep_events (content : Option String) (s : StreamState) :
    countStart (textStep content s).1 = 0 ∧
    countStop (textStep content s).1 = 0 ∧
    (textStep content s).2.message_start_sent = s.message_start_sent := by
  unfold textStep
  cases content with
  | none => simp [countStart, countStop]
  | some text =>
    dsimp only
    split <;> split <;>
      simp [countStart, countStop, List.countP_cons, List.countP_append,
            isMessageStart, isMessageStop]

theorem toolEntryStep_events (tc : DeltaToolCall) (s : StreamState) :
    countStart (toolEntryStep tc s).1 = 0 ∧
    countStop (toolEntryStep tc s).1 = 0 ∧
    (toolEntryStep tc s).2.message_start_sent = s.message_start_sent := by
  obtain ⟨idx, id, ct, func⟩ := tc
  unfold toolEntryStep
  cases id with
  | none =>
    cases func with
    | none => simp [countStart, countStop]
    | some f =>
      obtain ⟨nm, ar⟩ := f
      cases ar <;> dsimp only <;>
        [skip; split] <;>
        simp [countStart, countStop, List.countP_cons, isMessageStart, isMessageStop]
  | some i =>
    cases func with
    | none => simp [countStart, countStop]
    | some f =>
      obtain ⟨nm, ar⟩ := f
      cases nm with
      | none =>
        cases ar <;> dsimp only <;>
          [skip; split] <;>
          simp [countStart, countStop, List.countP_cons, isMessageStart, isMessageStop]
      | some name =>
        cases ar <;> dsimp only <;> split <;>
          (try split) <;>
          simp [countStart, countStop, List.countP_cons, List.countP_append,
                isMessageStart, isMessageStop]

theorem toolLoop_events (l : List DeltaToolCall) (s : StreamState) :
    countStart (toolLoop l s).1 = 0 ∧
    countStop (toolLoop l s).1 = 0 ∧
    (toolLoop l s).2.message_start_sent = s.message_start_sent := by
  induction l generalizing s with
  | nil => simp [toolLoop, countStart, countStop]
  | cons tc rest ih =>
    obtain ⟨h1, h2, h3⟩ := toolEntryStep_events tc s
    obtain ⟨h4, h5, h6⟩ := ih (toolEntryStep tc s).2
    simp only [toolLoop, countStart, countStop, List.countP_append] at *
    exact ⟨by omega, by omega, by rw [h6, h3]⟩

theorem toolStep_events (tcs : Option (List DeltaToolCall)) (s : StreamState) :
    countStart (toolStep tcs s).1 = 0 ∧
    countStop (toolStep tcs s).1 = 0 ∧
    (toolStep tcs s).2.message_start_sent = s.message_start_sent := by
  cases tcs with
  | none => simp [toolStep, countStart, countStop]
  | some l => exact toolLoop_events l s

theorem finishStep_events (chunk : ChatCompletionChunk) (fr : Option String)
    (s : StreamState) :
    countStart (finishStep chunk fr s).1 = 0 ∧
    countStop (finishStep chunk fr s).1 = (if fr.isSome then 1 else 0) ∧
    (finishStep chunk fr s).2.message_start_sent = s.message_start_sent := by
  cases fr with
  | none => simp [finishStep, countStart, countStop]
  | some reason =>
    unfold finishStep
    dsimp only
    split <;>
      simp [countStart, countStop, List.countP_cons, List.countP_append,
            isMessageStart, isMessageStop]

end FirstOfficer

namespace FirstOfficer

theorem translate_chunk_events (c : ChatCompletionChunk) (s : StreamState) :
    countStart (translate_chunk c s).1 =
      (if s.message_start_sent || c.choices.isEmpty then 0 else 1) ∧
    countStop (translate_chunk c s).1 = (if hasFinish c then 1 else 0) ∧
    (translate_chunk c s).2.message_start_sent =
      (s.message_start_sent || !c.choices.isEmpty) := by
  unfold translate_chunk
  cases hch : c.choices with
  | nil => simp [countStart, countStop, hasFinish, hch]
  | cons choice rest =>
    dsimp only
    obtain ⟨a1, a2, a3, _, _, _⟩ := startStep_events c s
    obtain ⟨b1, b2, b3⟩ := textStep_events choice.delta.content (startStep c s).2
    obtain ⟨c1, c2, c3⟩ :=
      toolStep_events choice.delta.tool_calls (textStep choice.delta.content (startStep c s).2).2
    obtain ⟨d1, d2, d3⟩ := finishStep_events c choice.finish_reason
      (toolStep choice.delta.tool_calls (textStep choice.delta.content (startStep c s).2).2).2
    simp only [countStart, countStop, List.countP_append] at *
    refine ⟨by rw [a1, b1, c1, d1]; cases s.message_start_sent <;> simp, ?_, ?_⟩
    · rw [a2, b2, c2, d2]
      simp [hasFinish, hch]
    · rw [d3, c3, b3, a3]
      simp

theorem runChunks_append (a b : List ChatCompletionChunk) (s : StreamState) :
    runChunks (a ++ b) s =
      ((runChunks a s).1 ++ (runChunks b (runChunks a s).2).1,
       (runChunks b (runChunks a s).2).2) := by
  induction a generalizing s with
  | nil => simp [runChunks]
  | cons c cs ih =>
    simp only [List.cons_append, runChunks, List.append_eq]
    rw [ih (translate_chunk c s).2]
    simp [List.append_assoc]

theorem runChunks_countStop (cs : List ChatCompletionChunk) (s : StreamState) :
    countStop (runChunks cs s).1 = cs.countP hasFinish := by
  induction cs generalizing s with
  | nil => simp [runChunks, countStop]
  | cons c rest ih =>
    obtain ⟨_, h2, _⟩ := translate_chunk_events c s
    simp only [runChunks, countStop, List.countP_append, List.countP_cons] at *
    rw [h2, ih]
    cases h : hasFinish c <;> simp [h, Nat.add_comm]

theorem countStart_arith (x y z : Bool) :
    ((if (x || y) = true then 0 else 1) +
      if (x || !y) = true then 0 else if z = true then 1 else 0) =
    (if x = true then 0 else if (!y || z) = true then 1 else 0) := by
  cases x <;> cases y <;> cases z <;> simp

theorem runChunks_countStart (cs : List ChatCompletionChunk) (s : StreamState) :
    countStart (runChunks cs s).1 =
      (if s.message_start_sent then 0
       else if cs.any (fun c => !c.choices.isEmpty) then 1 else 0) ∧
    (runChunks cs s).2.message_start_sent =
      (s.message_start_sent || cs.any (fun c => !c.choices.isEmpty)) := by
  induction cs generalizing s with
  | nil => simp [runChunks, countStart]
  | cons c rest ih =>
    obtain ⟨h1, _, h3⟩ := translate_chunk_events c s
    obtain ⟨ih1, ih2⟩ := ih (translate_chunk c s).2
    simp only [runChunks, countStart, List.countP_append, List.any_cons] at *
    constructor
    · rw [h1, ih1, h3]
      exact countStart_arith s.message_start_sent c.choices.isEmpty
        (rest.any fun c => !c.choices.isEmpty)
    · rw [ih2, h3]
      simp [Bool.or_assoc]

theorem translate_chunk_finish_last (c : ChatCompletionChunk) (s : StreamState)
    (h : hasFinish c = true) :
    (translate_chunk c s).1.getLast? = some .messageStop := by
  unfold translate_chunk
  cases hch : c.choices with
  | nil => rw [hasFinish, hch] at h; simp at h
  | cons choice rest =>
    dsimp only
    have h' : choice.finish_reason.isSome = true := by
      rw [hasFinish, hch] at h
      exact h
    cases hfr : choice.finish_reason with
    | none => rw [hfr] at h'; simp at h'
    | some reason =>
      unfold finishStep
      dsimp only
      simp [List.getLast?_append_cons]

end FirstOfficer

namespace FirstOfficer

/-- A plain text-delta chunk, as in scenario C. -/
def textDeltaChunk (t : String) : ChatCompletionChunk :=
  { id := "c1", object := "chat.completion.chunk", created := 0, model := "m",
    choices := [{ index := 0,
                  delta := { content := some t, role := none, tool_calls := none },
                  finish_reason := none, logprobs := none }],
    system_fingerprint := none, usage := none }

/-- A finish-reason chunk, as in scenario C. -/
def finishChunk (r : String) : ChatCompletionChunk :=
  { id := "c1", object := "chat.completion.chunk", created := 0, model := "m",
    choices := [{ index := 0,
                  delta := { content := none, role := none, tool_calls := none },
                  finish_reason := some r, logprobs := none }],
    system_fingerprint := none, usage := none }

/-- C4 (counterexample): a stream consisting of one text chunk and no
finish-reason chunk emits no `message_stop` at all, so "exactly one
`message_stop` for every sequence of upstream chunks" fails. -/
theorem C4_counterexample :
    countStop (processChunks [textDeltaChunk "Hello"]) ≠ 1 := by
  decide

/-- C4 (amended): for every upstream stream whose final chunk carries a
finish reason on `choices[0]` and in which no earlier chunk does, the
emitted event sequence contains exactly one `message_start`, exactly
one `message_stop`, and the `message_stop` is the last event. -/
theorem C4_one_start_one_stop (init : List ChatCompletionChunk)
    (c : ChatCompletionChunk)
    (h1 : ∀ x ∈ init, hasFinish x = false) (h2 : hasFinish c = true) :
    countStart (processChunks (init ++ [c])) = 1 ∧
    countStop (processChunks (init ++ [c])) = 1 ∧
    (processChunks (init ++ [c])).getLast? = some .messageStop := by
  have hne : c.choices ≠ [] := by
    intro hnil
    rw [hasFinish, hnil] at h2
    simp at h2
  refine ⟨?_, ?_, ?_⟩
  · obtain ⟨hcnt, _⟩ := runChunks_countStart (init ++ [c]) StreamState.new
    rw [processChunks, hcnt]
    have hany : (init ++ [c]).any (fun c => !c.choices.isEmpty) = true := by
      rw [List.any_append]
      simp [hne]
    rw [hany]
    rfl
  · rw [processChunks, runChunks_countStop, List.countP_append]
    have hz : init.countP hasFinish = 0 := by
      rw [List.countP_eq_zero]
      intro x hx
      simp [h1 x hx]
    rw [hz]
    simp [h2]
  · rw [processChunks, runChunks_append]
    dsimp only
    have hlast := translate_chunk_finish_last c (runChunks init StreamState.new).2 h2
    have hstop : (runChunks [c] (runChunks init StreamState.new).2).1
        = (translate_chunk c (runChunks init StreamState.new).2).1 := by
      simp [runChunks]
    rw [hstop]
    rw [List.getLast?_append_of_ne_nil]
    · exact hlast
    · intro hnil
      rw [hnil] at hlast
      simp at hlast

/-- C4 (witness): scenario C's chunk sequence satisfies the hypotheses
and the conclusions. -/
theorem C4_one_start_one_stop_witness :
    (∀ x ∈ [textDeltaChunk "Hello", textDeltaChunk " world"], hasFinish x = false) ∧
    hasFinish (finishChunk "stop") = true ∧
    (countStart (processChunks
        ([textDeltaChunk "Hello", textDeltaChunk " world"] ++ [finishChunk "stop"])) = 1 ∧
     countStop (processChunks
        ([textDeltaChunk "Hello", textDeltaChunk " world"] ++ [finishChunk "stop"])) = 1 ∧
     (processChunks
        ([textDeltaChunk "Hello", textDeltaChunk " world"] ++ [finishChunk "stop"])).getLast?
        = some .messageStop) :=
  ⟨by decide, by decide,
   C4_one_start_one_stop [textDeltaChunk "Hello", textDeltaChunk " world"]
     (finishChunk "stop") (by decide) (by decide)⟩

end FirstOfficer

namespace FirstOfficer

/-! ## C5: content-block discipline of the event stream -/

/-- Indices of the `content_block_start` events, in order. -/
def startIndices (evs : List StreamEvent) : List Nat :=
  evs.filterMap fun e =>
    match e with
    | .contentBlockStart i _ => some i
    | _ => none

/-- Run the block discipline over an event list: `o` is the index of
the currently open block (if any); the result is `none` on a violation
(a start while a block is open, a stop with no or a mismatched open
block), else the open block after the list. -/
def runDisc : Option Nat → List StreamEvent → Option (Option Nat)
  | o, [] => some o
  | o, e :: es =>
    match e with
    | .contentBlockStart i _ =>
      match o with
      | none => runDisc (some i) es
      | some _ => none
    | .contentBlockStop i =>
      match o with
      | some j => if i = j then runDisc none es else none
      | none => none
    | _ => runDisc o es

/-- Check that a list of indices is strictly increasing and entirely
above `m` (when set); returns the final maximum on success. -/
def incrRun : Option Nat → List Nat → Option (Option Nat)
  | m, [] => some m
  | m, i :: is =>
    match m with
    | none => incrRun (some i) is
    | some j => if j < i then incrRun (some i) is else none

/-- The open block recorded in a `StreamState`. -/
def openOf (s : StreamState) : Option Nat :=
  if s.content_block_open then some s.content_block_index else none

/-- The invariant tying the state to the trace: when a block is open it
is the one at the current index (which is also the largest start index
emitted, `m`); when no block is open every start index so far is below
the current index. -/
def stInv (s : StreamState) (m : Option Nat) : Prop :=
  (s.content_block_open = true → m = some s.content_block_index) ∧
  (s.content_block_open = false → ∀ j, m = some j → j < s.content_block_index)

theorem runDisc_append (o : Option Nat) (a b : List StreamEvent) :
    runDisc o (a ++ b) =
      match runDisc o a with
      | some o1 => runDisc o1 b
      | none => none := by
  induction a generalizing o with
  | nil => simp [runDisc]
  | cons e es ih =>
    cases e <;> simp only [List.cons_append, runDisc] <;>
      first
      | exact ih _
      | (cases o with
         | none => first | exact ih _ | rfl
         | some j =>
           first
           | rfl
           | (dsimp only; split <;> [exact ih _; rfl]))

theorem incrRun_append (m : Option Nat) (xs ys : List Nat) :
    incrRun m (xs ++ ys) =
      match incrRun m xs with
      | some m1 => incrRun m1 ys
      | none => none := by
  induction xs generalizing m with
  | nil => simp [incrRun]
  | cons i is ih =>
    cases m with
    | none => simpa [incrRun] using ih (some i)
    | some j =>
      simp only [List.cons_append, incrRun]
      split
      · exact ih (some i)
      · rfl

theorem startIndices_append (a b : List StreamEvent) :
    startIndices (a ++ b) = startIndices a ++ startIndices b := by
  simp [startIndices, List.filterMap_append]

theorem incrRun_single_of_lt (m : Option Nat) (i : Nat)
    (h : ∀ j, m = some j → j < i) : incrRun m [i] = some (some i) := by
  cases m with
  | none => rfl
  | some j => simp [incrRun, h j rfl]

end FirstOfficer

namespace FirstOfficer

theorem is_tool_block_open_open {s : StreamState}
    (h : s.is_tool_block_open = true) : s.content_block_open = true := by
  unfold StreamState.is_tool_block_open at h
  exact (Bool.and_eq_true_iff.mp h).1

theorem startStep_disc (c : ChatCompletionChunk) (s : StreamState) (m : Option Nat)
    (h : stInv s m) :
    runDisc (openOf s) (startStep c s).1 = some (openOf (startStep c s).2) ∧
    incrRun m (startIndices (startStep c s).1) = some m ∧
    stInv (startStep c s).2 m := by
  unfold startStep
  split
  · exact ⟨rfl, rfl, h⟩
  · exact ⟨rfl, rfl, h⟩

theorem textStep_disc (content : Option String) (s : StreamState) (m : Option Nat)
    (h : stInv s m) :
    ∃ m', runDisc (openOf s) (textStep content s).1
            = some (openOf (textStep content s).2) ∧
      incrRun m (startIndices (textStep content s).1) = some m' ∧
      stInv (textStep content s).2 m' := by
  obtain ⟨hopen, hclosed⟩ := h
  unfold textStep
  cases content with
  | none => exact ⟨m, rfl, rfl, hopen, hclosed⟩
  | some text =>
    dsimp only
    by_cases htool : s.is_tool_block_open = true
    · -- close the open tool block, then open a fresh text block
      have hop : s.content_block_open = true := is_tool_block_open_open htool
      have hm : m = some s.content_block_index := hopen hop
      refine ⟨some (s.content_block_index + 1), ?_, ?_, ?_⟩
      · simp [htool, hop, openOf, runDisc, startIndices]
      · simp [htool, hm, startIndices, incrRun]
      · constructor
        · intro _
          simp [htool]
        · intro hfalse
          simp [htool] at hfalse
    · by_cases hop : s.content_block_open = true
      · -- a text block is already open: just a delta
        refine ⟨m, ?_, ?_, ?_⟩
        · simp [htool, hop, openOf, runDisc, startIndices]
        · simp [htool, hop, startIndices, incrRun]
        · constructor
          · intro _
            simp [htool, hop]
            exact hopen hop
          · intro hfalse
            simp [htool, hop] at hfalse
      · -- open a fresh text block at the current index
        have hop' : s.content_block_open = false := by
          cases hcb : s.content_block_open
          · rfl
          · exact absurd hcb hop
        refine ⟨some s.content_block_index, ?_, ?_, ?_⟩
        · simp [htool, hop', openOf, runDisc, startIndices]
        · simp [htool, hop', startIndices, incrRun,
                incrRun_single_of_lt m s.content_block_index (hclosed hop')]
        · constructor
          · intro _
            simp [htool, hop']
          · intro hfalse
            simp [htool, hop'] at hfalse

end FirstOfficer

namespace FirstOfficer

theorem toolEntryStep_disc (tc : DeltaToolCall) (s : StreamState) (m : Option Nat)
    (h : stInv s m) :
    ∃ m', runDisc (openOf s) (toolEntryStep tc s).1
            = some (openOf (toolEntryStep tc s).2) ∧
      incrRun m (startIndices (toolEntryStep tc s).1) = some m' ∧
      stInv (toolEntryStep tc s).2 m' := by
  obtain ⟨hopen, hclosed⟩ := h
  obtain ⟨idx, id, ct, func⟩ := tc
  unfold toolEntryStep
  dsimp only
  cases id with
  | none =>
    cases func with
    | none => exact ⟨m, rfl, rfl, hopen, hclosed⟩
    | some f =>
      obtain ⟨nm, ar⟩ := f
      cases ar with
      | none => exact ⟨m, rfl, rfl, hopen, hclosed⟩
      | some a =>
        refine ⟨m, ?_, ?_, hopen, hclosed⟩ <;>
          rcases hlk : s.tool_calls.lookup idx with _ | tcs <;>
            simp [hlk, runDisc, startIndices, incrRun, openOf]
  | some i =>
    cases func with
    | none => exact ⟨m, rfl, rfl, hopen, hclosed⟩
    | some f =>
      obtain ⟨nm, ar⟩ := f
      cases nm with
      | none =>
        cases ar with
        | none => exact ⟨m, rfl, rfl, hopen, hclosed⟩
        | some a =>
          refine ⟨m, ?_, ?_, hopen, hclosed⟩ <;>
            rcases hlk : s.tool_calls.lookup idx with _ | tcs <;>
              simp [hlk, runDisc, startIndices, incrRun, openOf]
      | some name =>
        by_cases hcb : s.content_block_open = true
        · have hm : m = some s.content_block_index := hopen hcb
          refine ⟨some (s.content_block_index + 1), ?_, ?_, ?_⟩
          · cases ar <;>
              simp [hcb, openOf, runDisc, startIndices, toolCallsInsert, List.lookup]
          · cases ar <;>
              simp [hcb, hm, startIndices, incrRun, toolCallsInsert, List.lookup]
          · constructor
            · intro _
              cases ar <;> simp [hcb, toolCallsInsert]
            · intro hfalse
              cases ar <;> simp [hcb] at hfalse
        · have hcb' : s.content_block_open = false := by
            cases hx : s.content_block_open
            · rfl
            · exact absurd hx hcb
          refine ⟨some s.content_block_index, ?_, ?_, ?_⟩
          · cases ar <;>
              simp [hcb', openOf, runDisc, startIndices, toolCallsInsert, List.lookup]
          · cases ar <;>
              simp [hcb', startIndices, incrRun, toolCallsInsert, List.lookup,
                    incrRun_single_of_lt m s.content_block_index (hclosed hcb')]
          · constructor
            · intro _
              cases ar <;> simp [hcb', toolCallsInsert]
            · intro hfalse
              cases ar <;> simp [hcb'] at hfalse

theorem toolLoop_disc (l : List DeltaToolCall) (s : StreamState) (m : Option Nat)
    (h : stInv s m) :
    ∃ m', runDisc (openOf s) (toolLoop l s).1 = some (openOf (toolLoop l s).2) ∧
      incrRun m (startIndices (toolLoop l s).1) = some m' ∧
      stInv (toolLoop l s).2 m' := by
  induction l generalizing s m with
  | nil => exact ⟨m, rfl, rfl, h⟩
  | cons tc rest ih =>
    obtain ⟨m1, e1, i1, inv1⟩ := toolEntryStep_disc tc s m h
    obtain ⟨m2, e2, i2, inv2⟩ := ih (toolEntryStep tc s).2 m1 inv1
    refine ⟨m2, ?_, ?_, ?_⟩
    · simp only [toolLoop, runDisc_append, e1]
      exact e2
    · simp only [toolLoop, startIndices_append, incrRun_append, i1]
      exact i2
    · exact inv2

theorem toolStep_disc (tcs : Option (List DeltaToolCall)) (s : StreamState)
    (m : Option Nat) (h : stInv s m) :
    ∃ m', runDisc (openOf s) (toolStep tcs s).1 = some (openOf (toolStep tcs s).2) ∧
      incrRun m (startIndices (toolStep tcs s).1) = some m' ∧
      stInv (toolStep tcs s).2 m' := by
  cases tcs with
  | none => exact ⟨m, rfl, rfl, h⟩
  | some l => exact toolLoop_disc l s m h

theorem finishStep_disc (c : ChatCompletionChunk) (fr : Option String)
    (s : StreamState) (m : Option Nat) (h : stInv s m) :
    ∃ m', runDisc (openOf s) (finishStep c fr s).1
            = some (openOf (finishStep c fr s).2) ∧
      incrRun m (startIndices (finishStep c fr s).1) = some m' ∧
      (fr = none → stInv (finishStep c fr s).2 m') := by
  obtain ⟨hopen, hclosed⟩ := h
  cases fr with
  | none => exact ⟨m, rfl, rfl, fun _ => ⟨hopen, hclosed⟩⟩
  | some reason =>
    unfold finishStep
    dsimp only
    by_cases hcb : s.content_block_open = true
    · have hm : m = some s.content_block_index := hopen hcb
      refine ⟨m, ?_, ?_, by intro hx; cases hx⟩
      · simp [hcb, openOf, runDisc, startIndices]
      · simp [hcb, startIndices, incrRun]
    · have hcb' : s.content_block_open = false := by
        cases hx : s.content_block_open
        · rfl
        · exact absurd hx hcb
      refine ⟨m, ?_, ?_, by intro hx; cases hx⟩
      · simp [hcb', openOf, runDisc, startIndices]
      · simp [hcb', startIndices, incrRun]

theorem translate_chunk_disc (c : ChatCompletionChunk) (s : StreamState)
    (m : Option Nat) (h : stInv s m) :
    ∃ m', runDisc (openOf s) (translate_chunk c s).1
            = some (openOf (translate_chunk c s).2) ∧
      incrRun m (startIndices (translate_chunk c s).1) = some m' ∧
      (hasFinish c = false → stInv (translate_chunk c s).2 m') := by
  unfold translate_chunk
  cases hch : c.choices with
  | nil => exact ⟨m, rfl, rfl, fun _ => h⟩
  | cons choice rest =>
    dsimp only
    obtain ⟨e1, i1, inv1⟩ := startStep_disc c s m h
    obtain ⟨m2, e2, i2, inv2⟩ := textStep_disc choice.delta.content (startStep c s).2 m inv1
    obtain ⟨m3, e3, i3, inv3⟩ :=
      toolStep_disc choice.delta.tool_calls (textStep choice.delta.content (startStep c s).2).2
        m2 inv2
    obtain ⟨m4, e4, i4, inv4⟩ :=
      finishStep_disc c choice.finish_reason
        (toolStep choice.delta.tool_calls (textStep choice.delta.content (startStep c s).2).2).2
        m3 inv3
    refine ⟨m4, ?_, ?_, ?_⟩
    · simp only [runDisc_append, e1, e2, e3]
      exact e4
    · simp only [startIndices_append, incrRun_append, i1, i2, i3]
      exact i4
    · intro hnf
      apply inv4
      have hnf' : choice.finish_reason.isSome = false := by
        rw [hasFinish, hch] at hnf
        exact hnf
      cases hfr : choice.finish_reason with
      | none => rfl
      | some r => rw [hfr] at hnf'; simp at hnf' 

end FirstOfficer

namespace FirstOfficer

theorem textStep_mono (content : Option String) (s : StreamState) :
    s.content_block_index ≤ (textStep content s).2.content_block_index := by
  unfold textStep
  cases content with
  | none => exact Nat.le_refl _
  | some text =>
    dsimp only
    split <;> split <;> dsimp only <;> omega

theorem toolEntryStep_mono (tc : DeltaToolCall) (s : StreamState) :
    s.content_block_index ≤ (toolEntryStep tc s).2.content_block_index := by
  obtain ⟨idx, id, ct, func⟩ := tc
  unfold toolEntryStep
  dsimp only
  cases id with
  | none => exact Nat.le_refl _
  | some i =>
    cases func with
    | none => exact Nat.le_refl _
    | some f =>
      obtain ⟨nm, ar⟩ := f
      cases nm with
      | none => exact Nat.le_refl _
      | some name =>
        dsimp only
        split <;> dsimp only <;> omega

theorem toolLoop_mono (l : List DeltaToolCall) (s : StreamState) :
    s.content_block_index ≤ (toolLoop l s).2.content_block_index := by
  induction l generalizing s with
  | nil => exact Nat.le_refl _
  | cons tc rest ih =>
    exact Nat.le_trans (toolEntryStep_mono tc s) (ih (toolEntryStep tc s).2)

theorem toolStep_mono (tcs : Option (List DeltaToolCall)) (s : StreamState) :
    s.content_block_index ≤ (toolStep tcs s).2.content_block_index := by
  cases tcs with
  | none => exact Nat.le_refl _
  | some l => exact toolLoop_mono l s

theorem finishStep_mono (c : ChatCompletionChunk) (fr : Option String)
    (s : StreamState) :
    s.content_block_index ≤ (finishStep c fr s).2.content_block_index := by
  cases fr with
  | none => exact Nat.le_refl _
  | some reason =>
    unfold finishStep
    dsimp only
    split <;> dsimp only <;> omega

theorem translate_chunk_mono (c : ChatCompletionChunk) (s : StreamState) :
    s.content_block_index ≤ (translate_chunk c s).2.content_block_index := by
  unfold translate_chunk
  cases c.choices with
  | nil => exact Nat.le_refl _
  | cons choice rest =>
    dsimp only
    have h1 : s.content_block_index = (startStep c s).2.content_block_index :=
      ((startStep_events c s).2.2.2.1).symm
    rw [h1]
    exact Nat.le_trans (textStep_mono choice.delta.content (startStep c s).2)
      (Nat.le_trans (toolStep_mono choice.delta.tool_calls _) (finishStep_mono c _ _))

theorem runChunks_disc (cs : List ChatCompletionChunk) (s : StreamState)
    (m : Option Nat) (hinv : stInv s m)
    (hfr : ∀ x ∈ cs.dropLast, hasFinish x = false) :
    ∃ o' m', runDisc (openOf s) (runChunks cs s).1 = some o' ∧
      incrRun m (startIndices (runChunks cs s).1) = some m' := by
  induction cs generalizing s m with
  | nil => exact ⟨openOf s, m, rfl, rfl⟩
  | cons c rest ih =>
    obtain ⟨m1, e1, i1, inv1⟩ := translate_chunk_disc c s m hinv
    cases rest with
    | nil =>
      refine ⟨openOf (translate_chunk c s).2, m1, ?_, ?_⟩
      · simp only [runChunks, runDisc_append, e1]
        rfl
      · simp only [runChunks, startIndices_append, incrRun_append, i1]
        rfl
    | cons c2 rest2 =>
      have hc : hasFinish c = false := by
        apply hfr
        simp [List.dropLast_cons_of_ne_nil]
      have hfr' : ∀ x ∈ (c2 :: rest2).dropLast, hasFinish x = false := by
        intro x hx
        apply hfr
        rw [List.dropLast_cons_of_ne_nil (by simp)]
        exact List.mem_cons_of_mem _ hx
      obtain ⟨o2, m2, e2, i2⟩ := ih (translate_chunk c s).2 m1 (inv1 hc) hfr'
      have hsplit : (runChunks (c :: c2 :: rest2) s).1
          = (translate_chunk c s).1 ++ (runChunks (c2 :: rest2) (translate_chunk c s).2).1 :=
        rfl
      refine ⟨o2, m2, ?_, ?_⟩
      · rw [hsplit, runDisc_append, e1]
        exact e2
      · rw [hsplit, startIndices_append, incrRun_append, i1]
        exact i2

end FirstOfficer

namespace FirstOfficer

/-- C5 (counterexample): after a finish chunk, a further text chunk
re-opens a block at the *same* index (`content_block_index` was not
advanced by the finish-path `content_block_stop`), so the start indices
of the stream `[text, finish, text]` are `[0, 0]` — not strictly
increasing, refuting the claim as stated for arbitrary sequences. -/
theorem C5_counterexample :
    (incrRun none (startIndices (processChunks
      [textDeltaChunk "a", finishChunk "stop", textDeltaChunk "b"]))).isSome ≠ true := by
  decide

/-- C5 (amended): for every upstream stream in which only the final
chunk may carry a finish reason, the emitted events obey the block
discipline — at most one content block open at any point, every
`content_block_stop` matching the index of the open block — the
`content_block_start` indices are strictly increasing, and the state's
`content_block_index` never decreases across any chunk. -/
theorem C5_block_discipline (cs : List ChatCompletionChunk)
    (hfr : ∀ x ∈ cs.dropLast, hasFinish x = false) :
    (runDisc none (processChunks cs)).isSome = true ∧
    (incrRun none (startIndices (processChunks cs))).isSome = true ∧
    (∀ (c : ChatCompletionChunk) (s : StreamState),
       s.content_block_index ≤ (translate_chunk c s).2.content_block_index) := by
  have hinv : stInv StreamState.new none := by
    constructor
    · intro h
      simp [StreamState.new] at h
    · intro _ j hj
      cases hj
  obtain ⟨o', m', e, i⟩ := runChunks_disc cs StreamState.new none hinv hfr
  have e' : runDisc none (runChunks cs StreamState.new).1 = some o' := e
  have i' : incrRun none (startIndices (runChunks cs StreamState.new).1) = some m' := i
  refine ⟨?_, ?_, translate_chunk_mono⟩
  · rw [processChunks, e']
    rfl
  · rw [processChunks, i']
    rfl

/-- C5 (witness): scenario C's chunk sequence satisfies the hypothesis
and the conclusions, instantiated at a concrete chunk and state for the
monotonicity part. -/
theorem C5_block_discipline_witness :
    (∀ x ∈ ([textDeltaChunk "Hello", textDeltaChunk " world",
              finishChunk "stop"] : List ChatCompletionChunk).dropLast,
        hasFinish x = false) ∧
    (runDisc none (processChunks
        [textDeltaChunk "Hello", textDeltaChunk " world",
         finishChunk "stop"])).isSome = true ∧
    (incrRun none (startIndices (processChunks
        [textDeltaChunk "Hello", textDeltaChunk " world",
         finishChunk "stop"]))).isSome = true ∧
    busyState.content_block_index ≤
      (translate_chunk (textDeltaChunk "x") busyState).2.content_block_index :=
  ⟨by decide,
   (C5_block_discipline [textDeltaChunk "Hello", textDeltaChunk " world",
      finishChunk "stop"] (by decide)).1,
   (C5_block_discipline [textDeltaChunk "Hello", textDeltaChunk " world",
      finishChunk "stop"] (by decide)).2.1,
   (C5_block_discipline [textDeltaChunk "Hello", textDeltaChunk " world",
      finishChunk "stop"] (by decide)).2.2 (textDeltaChunk "x") busyState⟩

end FirstOfficer

namespace FirstOfficer

/-! ## C6: the thinking parser loses no text -/

theorem renderEvents_append (a b : List ThinkingEvent) :
    renderEvents (a ++ b) = renderEvents a ++ renderEvents b := by
  simp [renderEvents]

/-- Every `pushLoop` step conserves text: what has been rendered plus
what stays in the buffer is exactly the input buffer. -/
theorem pushLoop_roundtrip (fuel : Nat) (inTh : Bool) (buf : List Char) :
    renderEvents (pushLoop fuel inTh buf).1 ++ (pushLoop fuel inTh buf).2.2 = buf := by
  induction fuel generalizing inTh buf with
  | zero => simp [pushLoop, renderEvents]
  | succ fuel ih =>
    cases inTh with
    | true =>
      rw [pushLoop]
      rcases hf : findSub closeTag buf with _ | i
      · dsimp only
        split
        · split
          · rename_i hemp
            rw [List.isEmpty_iff] at hemp
            simp only [renderEvents, List.map_nil, List.flatten_nil, List.nil_append]
            conv_rhs =>
              rw [← List.take_append_drop
                    (buf.length - min closeTag.length buf.length) buf]
            rw [hemp, List.nil_append]
          · simp only [renderEvents, List.map_cons, List.map_nil, renderEvent,
                       List.flatten_cons, List.flatten_nil, List.append_nil]
            exact List.take_append_drop _ _
        · simp [renderEvents]
      · dsimp only
        have hdec := findSub_some_decompose hf
        have ihs := ih false (buf.drop (i + closeTag.length))
        have hrend : renderEvents
            ((if i > 0 then [ThinkingEvent.thinkingDelta (buf.take i)] else [])
              ++ [ThinkingEvent.thinkingEnd]) = buf.take i ++ closeTag := by
          by_cases hi : i > 0
          · simp [hi, renderEvents, renderEvent]
          · have hi0 : i = 0 := by omega
            subst hi0
            simp [renderEvents, renderEvent]
        rw [renderEvents_append, List.append_assoc, ihs, hrend]
        exact hdec
    | false =>
      rw [pushLoop]
      rcases hf : findSub openTag buf with _ | i
      · dsimp only
        split
        · split
          · rename_i hemp
            rw [List.isEmpty_iff] at hemp
            simp only [renderEvents, List.map_nil, List.flatten_nil, List.nil_append]
            conv_rhs =>
              rw [← List.take_append_drop
                    (buf.length - min openTag.length buf.length) buf]
            rw [hemp, List.nil_append]
          · simp only [renderEvents, List.map_cons, List.map_nil, renderEvent,
                       List.flatten_cons, List.flatten_nil, List.append_nil]
            exact List.take_append_drop _ _
        · simp [renderEvents]
      · dsimp only
        have hdec := findSub_some_decompose hf
        have ihs := ih true (buf.drop (i + openTag.length))
        have hrend : renderEvents
            ((if i > 0 then
                (if (buf.take i).isEmpty then []
                 else [ThinkingEvent.textDelta (buf.take i)])
              else []) ++ [ThinkingEvent.thinkingStart])
            = buf.take i ++ openTag := by
          by_cases hi : i > 0
          · by_cases hemp : (buf.take i).isEmpty
            · rw [List.isEmpty_iff] at hemp
              simp [hi, hemp, renderEvents, renderEvent]
            · simp [hi, hemp, renderEvents, renderEvent]
          · have hi0 : i = 0 := by omega
            subst hi0
            simp [renderEvents, renderEvent]
        rw [renderEvents_append, List.append_assoc, ihs, hrend]
        exact hdec

theorem push_roundtrip (p : ThinkingStreamParser) (chunk : List Char) :
    renderEvents (p.push chunk).1 ++ (p.push chunk).2.buffer = p.buffer ++ chunk := by
  unfold ThinkingStreamParser.push
  exact pushLoop_roundtrip _ _ _

theorem pushAll_roundtrip (chunks : List (List Char)) (p : ThinkingStreamParser) :
    renderEvents (pushAll chunks p).1 ++ (pushAll chunks p).2.buffer
      = p.buffer ++ chunks.flatten := by
  induction chunks generalizing p with
  | nil => simp [pushAll, renderEvents]
  | cons c cs ih =>
    simp only [pushAll, List.flatten_cons, renderEvents_append, List.append_assoc]
    rw [ih (p.push c).2]
    rw [← List.append_assoc, push_roundtrip, List.append_assoc]

theorem finish_render (p : ThinkingStreamParser) :
    renderFinish p.finish = p.buffer := by
  unfold ThinkingStreamParser.finish
  split
  · split <;> rfl
  · rename_i hne
    simp only [Bool.not_eq_true', Bool.not_eq_false] at hne
    rw [List.isEmpty_iff] at hne
    rw [hne]
    rfl

/-- C6: for every sequence of chunks fed to the streaming
ThinkingParser, concatenating the payloads of all emitted events in
order — `ThinkingStart` rendered as the literal `<thinking>`,
`ThinkingEnd` as `</thinking>`, the deltas as their text — followed by
the payload of the final `finish()` event, yields exactly the
concatenation of the input chunks. -/
theorem C6_roundtrip (chunks : List (List Char)) :
    renderEvents (pushAll chunks ThinkingStreamParser.new).1
      ++ renderFinish (pushAll chunks ThinkingStreamParser.new).2.finish
      = chunks.flatten := by
  rw [finish_render]
  simpa using pushAll_roundtrip chunks ThinkingStreamParser.new

end FirstOfficer

namespace FirstOfficer

/-! ## C7: the SSE framer under re-chunking -/

theorem extractAux_congr :
    ∀ (f : Nat) (buf : List Char) (g : Nat),
      buf.length < f → buf.length < g → extractAux f buf = extractAux g buf := by
  intro f
  induction f with
  | zero =>
    intro buf g hf _
    exact absurd hf (Nat.not_lt_zero _)
  | succ f ihf =>
    intro buf g hf hg
    cases g with
    | zero => exact absurd hg (Nat.not_lt_zero _)
    | succ g =>
      rw [extractAux, extractAux]
      rcases h1 : findSub lflf buf with _ | pos
      · rcases h2 : findSub crlfcrlf buf with _ | pos
        · rfl
        · have hb := findSub_some_bound h2
          have hb4 : pos + 4 ≤ buf.length := by simpa [crlfcrlf] using hb
          dsimp only
          rcases hp : parse_sse_data (buf.take pos) with _ | d
          · have hlen : (buf.drop (pos + 4)).length < f := by
              rw [List.length_drop]
              omega
            have hlen' : (buf.drop (pos + 4)).length < g := by
              rw [List.length_drop]
              omega
            exact ihf (buf.drop (pos + 4)) g hlen hlen'
          · rfl
      · have hb := findSub_some_bound h1
        have hb2 : pos + 2 ≤ buf.length := by simpa [lflf] using hb
        dsimp only
        rcases hp : parse_sse_data (buf.take pos) with _ | d
        · have hlen : (buf.drop (pos + 2)).length < f := by
            rw [List.length_drop]
            omega
          have hlen' : (buf.drop (pos + 2)).length < g := by
            rw [List.length_drop]
            omega
          exact ihf (buf.drop (pos + 2)) g hlen hlen'
        · rfl

theorem extractAux_shrink :
    ∀ (f : Nat) (buf : List Char) (d b : List Char),
      extractAux f buf = (some d, b) → b.length + 2 ≤ buf.length := by
  intro f
  induction f with
  | zero =>
    intro buf d b h
    simp [extractAux] at h
  | succ f ihf =>
    intro buf d b h
    rw [extractAux] at h
    rcases h1 : findSub lflf buf with _ | pos <;> rw [h1] at h
    · rcases h2 : findSub crlfcrlf buf with _ | pos <;> rw [h2] at h
      · simp at h
      · have hb := findSub_some_bound h2
        have hb4 : pos + 4 ≤ buf.length := by simpa [crlfcrlf] using hb
        dsimp only at h
        rcases hp : parse_sse_data (buf.take pos) with _ | dd <;> rw [hp] at h
        · have := ihf _ _ _ h
          rw [List.length_drop] at this
          omega
        · obtain ⟨rfl, rfl⟩ : dd = d ∧ buf.drop (pos + 4) = b := by
            simpa using h
          rw [List.length_drop]
          omega
    · have hb := findSub_some_bound h1
      have hb2 : pos + 2 ≤ buf.length := by simpa [lflf] using hb
      dsimp only at h
      rcases hp : parse_sse_data (buf.take pos) with _ | dd <;> rw [hp] at h
      · have := ihf _ _ _ h
        rw [List.length_drop] at this
        omega
      · obtain ⟨rfl, rfl⟩ : dd = d ∧ buf.drop (pos + 2) = b := by
          simpa using h
        rw [List.length_drop]
        omega

theorem extract_shrink {buf d b : List Char}
    (h : extract_next_sse_data buf = (some d, b)) : b.length + 2 ≤ buf.length :=
  extractAux_shrink _ _ _ _ h

theorem drainAux_congr :
    ∀ (f : Nat) (buf : List Char) (g : Nat),
      buf.length < f → buf.length < g → drainAux f buf = drainAux g buf := by
  intro f
  induction f with
  | zero =>
    intro buf g hf _
    exact absurd hf (Nat.not_lt_zero _)
  | succ f ihf =>
    intro buf g hf hg
    cases g with
    | zero => exact absurd hg (Nat.not_lt_zero _)
    | succ g =>
      rw [drainAux, drainAux]
      rcases hext : extract_next_sse_data buf with ⟨o, b⟩
      cases o with
      | none => rfl
      | some d =>
        have hs := extract_shrink hext
        dsimp only
        rw [ihf b g (by omega) (by omega)]

/-- One full step of the drain loop, with the fuel arithmetic hidden. -/
theorem drainSSE_eq (buf : List Char) :
    drainSSE buf =
      match extract_next_sse_data buf with
      | (some d, b) => (d :: (drainSSE b).1, (drainSSE b).2)
      | (none, b) => ([], b) := by
  unfold drainSSE
  rw [drainAux]
  rcases hext : extract_next_sse_data buf with ⟨o, b⟩
  cases o with
  | none => rfl
  | some d =>
    have hs := extract_shrink hext
    dsimp only
    rw [drainAux_congr buf.length b (b.length + 1) (by omega) (by omega)]

end FirstOfficer

namespace FirstOfficer

theorem crlf_not_found {buf : List Char} (h : '\r' ∉ buf) :
    findSub crlfcrlf buf = none :=
  findSub_none_of_not_mem (by decide) h

theorem extract_noCR_none {buf : List Char} (hcr : '\r' ∉ buf)
    (h : findSub lflf buf = none) :
    extract_next_sse_data buf = (none, buf) := by
  unfold extract_next_sse_data
  rw [extractAux, h, crlf_not_found hcr]

theorem extract_noCR_some {buf : List Char} {pos : Nat} (hcr : '\r' ∉ buf)
    (h : findSub lflf buf = some pos) :
    extract_next_sse_data buf =
      match parse_sse_data (buf.take pos) with
      | some d => (some d, buf.drop (pos + 2))
      | none => extract_next_sse_data (buf.drop (pos + 2)) := by
  have hb := findSub_some_bound h
  have hb2 : pos + 2 ≤ buf.length := by simpa [lflf] using hb
  conv_lhs => rw [extract_next_sse_data, extractAux, h]
  dsimp only
  rcases hp : parse_sse_data (buf.take pos) with _ | d
  · rw [extract_next_sse_data]
    exact extractAux_congr buf.length _ _ (by rw [List.length_drop]; omega)
      (by rw [List.length_drop]; omega)
  · rfl

theorem noCR_drop {buf : List Char} (h : '\r' ∉ buf) (n : Nat) :
    '\r' ∉ buf.drop n :=
  fun hmem => h (List.drop_subset n buf hmem)

theorem noCR_append {a b : List Char} (ha : '\r' ∉ a) (hb : '\r' ∉ b) :
    '\r' ∉ a ++ b := by
  intro h
  rcases List.mem_append.mp h with h' | h'
  · exact ha h'
  · exact hb h'

/-- After draining, the leftover buffer holds no complete event
terminator (and no carriage return when the input had none). -/
theorem drain_leftover (n : Nat) :
    ∀ (buf : List Char), buf.length ≤ n → '\r' ∉ buf →
      findSub lflf (drainSSE buf).2 = none ∧ '\r' ∉ (drainSSE buf).2 := by
  induction n with
  | zero =>
    intro buf hlen hcr
    have hnil : buf = [] := List.eq_nil_of_length_eq_zero (by omega)
    subst hnil
    rw [drainSSE_eq, extract_noCR_none hcr (by rfl)]
    exact ⟨rfl, hcr⟩
  | succ n ih =>
    intro buf hlen hcr
    rcases hfind : findSub lflf buf with _ | pos
    · rw [drainSSE_eq, extract_noCR_none hcr hfind]
      exact ⟨hfind, hcr⟩
    · have hb := findSub_some_bound hfind
      have hb2 : pos + 2 ≤ buf.length := by simpa [lflf] using hb
      have hcr' : '\r' ∉ buf.drop (pos + 2) := noCR_drop hcr _
      have hlen' : (buf.drop (pos + 2)).length ≤ n := by
        rw [List.length_drop]
        omega
      have hrec := ih (buf.drop (pos + 2)) hlen' hcr'
      rw [drainSSE_eq, extract_noCR_some hcr hfind]
      rcases hp : parse_sse_data (buf.take pos) with _ | d
      · dsimp only
        rw [← drainSSE_eq]
        exact hrec
      · dsimp only
        exact hrec

end FirstOfficer

namespace FirstOfficer

/-- Draining `buf ++ x` is draining `buf`, then draining the leftover
with `x` appended — the framer is incremental on `\r`-free input. -/
theorem drain_append (n : Nat) :
    ∀ (buf x : List Char), buf.length ≤ n → '\r' ∉ buf → '\r' ∉ x →
      (drainSSE (buf ++ x)).1
          = (drainSSE buf).1 ++ (drainSSE ((drainSSE buf).2 ++ x)).1 ∧
      (drainSSE (buf ++ x)).2 = (drainSSE ((drainSSE buf).2 ++ x)).2 := by
  induction n with
  | zero =>
    intro buf x hlen hcr hcrx
    have hnil : buf = [] := List.eq_nil_of_length_eq_zero (by omega)
    subst hnil
    rw [drainSSE_eq ([] : List Char), extract_noCR_none hcr (by rfl)]
    simp
  | succ n ih =>
    intro buf x hlen hcr hcrx
    rcases hfind : findSub lflf buf with _ | pos
    · -- no complete event in `buf`: nothing is drained from it
      rw [drainSSE_eq buf, extract_noCR_none hcr hfind]
      simp
    · have hb := findSub_some_bound hfind
      have hb2 : pos + 2 ≤ buf.length := by simpa [lflf] using hb
      have hcr' : '\r' ∉ buf.drop (pos + 2) := noCR_drop hcr _
      have hcrbx : '\r' ∉ buf ++ x := noCR_append hcr hcrx
      have hlen' : (buf.drop (pos + 2)).length ≤ n := by
        rw [List.length_drop]
        omega
      have hfind2 : findSub lflf (buf ++ x) = some pos := findSub_append_left hfind
      have htake : (buf ++ x).take pos = buf.take pos :=
        List.take_append_of_le_length (by omega)
      have hdrop : (buf ++ x).drop (pos + 2) = buf.drop (pos + 2) ++ x :=
        List.drop_append_of_le_length (by omega)
      have hrec := ih (buf.drop (pos + 2)) x hlen' hcr' hcrx
      rw [drainSSE_eq (buf ++ x), extract_noCR_some hcrbx hfind2, htake, hdrop]
      rw [drainSSE_eq buf, extract_noCR_some hcr hfind]
      rcases hp : parse_sse_data (buf.take pos) with _ | d
      · dsimp only
        rw [← drainSSE_eq, ← drainSSE_eq]
        exact hrec
      · dsimp only
        exact ⟨by rw [hrec.1, List.cons_append], hrec.2⟩

/-- Feeding chunk by chunk from a drained, `\r`-free buffer produces
exactly the data strings of draining the whole concatenation. -/
theorem feedSSE_eq_drain :
    ∀ (cs : List (List Char)) (b0 : List Char),
      '\r' ∉ b0 → (∀ c ∈ cs, '\r' ∉ c) → findSub lflf b0 = none →
      feedSSE cs b0 = (drainSSE (b0 ++ cs.flatten)).1 := by
  intro cs
  induction cs with
  | nil =>
    intro b0 hcr _ hfind
    rw [feedSSE, List.flatten_nil, List.append_nil]
    rw [drainSSE_eq, extract_noCR_none hcr hfind]
  | cons c cs ih =>
    intro b0 hcr hcs hfind
    have hcrc : '\r' ∉ c := hcs c (List.mem_cons_self c cs)
    have hcrcs : ∀ y ∈ cs, '\r' ∉ y := fun y hy => hcs y (List.mem_cons_of_mem _ hy)
    have hcrb0c : '\r' ∉ b0 ++ c := noCR_append hcr hcrc
    have hcrflat : '\r' ∉ cs.flatten := by
      intro hmem
      obtain ⟨l, hl, hml⟩ := List.mem_flatten.mp hmem
      exact hcrcs l hl hml
    obtain ⟨hlv, hlcr⟩ :=
      drain_leftover (b0 ++ c).length (b0 ++ c) (Nat.le_refl _) hcrb0c
    have hK := drain_append (b0 ++ c).length (b0 ++ c) cs.flatten (Nat.le_refl _)
      hcrb0c hcrflat
    rw [feedSSE]
    rw [ih (drainSSE (b0 ++ c)).2 hlcr hcrcs hlv]
    rw [List.flatten_cons, ← List.append_assoc]
    rw [hK.1]

/-- Flattening the one-byte chunks gives back the stream. -/
theorem byteChunks_flatten (s : List Char) : (byteChunks s).flatten = s := by
  induction s with
  | nil => rfl
  | cons c cs ih => simp [byteChunks, List.flatten_cons] at *; exact ih

def sseMixed : List Char := "data: a\r\n\r\ndata: b\n\n".toList

/-- C7 (counterexample): the well-formed SSE stream
`data: a\r\n\r\ndata: b\n\n` — a CRLF-terminated event followed by an
LF-terminated one — yields the single data string `"a\nb"` when fed
whole (the `\n\n` scan finds the later LF terminator first and treats
everything before it as one block) but the two data strings `"a"`,
`"b"` when fed byte by byte, so the framer is not invariant under
re-chunking on all well-formed streams. -/
theorem C7_counterexample :
    WFSSE sseMixed ∧ sseOutputs [sseMixed] ≠ sseOutputs (byteChunks sseMixed) := by
  constructor
  · have h : sseMixed =
        sseBlock ["data: a".toList] true ++ (sseBlock ["data: b".toList] false ++ []) := by
      decide
    rw [h]
    exact WFSSE.block _ _ _ (by simp) (by decide)
      (WFSSE.block _ _ _ (by simp) (by decide) WFSSE.nil)
  · decide

/-- C7 (amended): for every well-formed SSE byte stream that uses only
`\n` line endings (no carriage returns), feeding it to the framer one
byte at a time yields the same sequence of extracted data strings as
feeding the entire stream in a single chunk. -/
theorem C7_rechunk_invariant (s : List Char) (hwf : WFSSE s) (hcr : '\r' ∉ s) :
    sseOutputs (byteChunks s) = sseOutputs [s] := by
  have h1 : feedSSE (byteChunks s) [] = (drainSSE ([] ++ (byteChunks s).flatten)).1 := by
    apply feedSSE_eq_drain (byteChunks s) [] (by simp) ?_ (by rfl)
    intro c hc
    obtain ⟨ch, hch, rfl⟩ := List.mem_map.mp hc
    intro hmem
    rcases List.mem_singleton.mp hmem with rfl
    exact hcr hch
  have h2 : feedSSE [s] [] = (drainSSE ([] ++ ([s] : List (List Char)).flatten)).1 := by
    apply feedSSE_eq_drain [s] [] (by simp) ?_ (by rfl)
    intro c hc
    rcases List.mem_singleton.mp hc with rfl
    exact hcr
  show feedSSE (byteChunks s) [] = feedSSE [s] []
  rw [h1, h2, byteChunks_flatten]
  simp

/-- C7 (witness for the amended theorem): a concrete LF-only stream. -/
theorem C7_rechunk_invariant_witness :
    WFSSE ("data: x\n\n".toList) ∧ '\r' ∉ ("data: x\n\n".toList) ∧
    sseOutputs (byteChunks ("data: x\n\n".toList)) = sseOutputs ["data: x\n\n".toList] :=
  ⟨by
    have h : ("data: x\n\n".toList : List Char)
        = sseBlock ["data: x".toList] false ++ [] := by decide
    rw [h]
    exact WFSSE.block _ _ _ (by simp) (by decide) WFSSE.nil,
   by decide,
   C7_rechunk_invariant ("data: x\n\n".toList)
    (by
      have h : ("data: x\n\n".toList : List Char)
          = sseBlock ["data: x".toList] false ++ [] := by decide
      rw [h]
      exact WFSSE.block _ _ _ (by simp) (by decide) WFSSE.nil)
    (by decide)⟩

end FirstOfficer
